import Mathlib

set_option maxRecDepth 4000

/-!
Verification of the cjson repository's core JSON codec against its design
specification.  The development shallowly embeds the C sources
(`src/json_parser.c`, `src/json_stringify.c`, `src/json_streaming.c`,
`src/json_utils.c`, `src/json_advanced.c`) as executable Lean definitions:
byte strings are `List Nat` (one entry per byte, the terminating NUL of a C
string is represented by truncation via `cstr`), IEEE-754 doubles produced by
`strtod` are represented exactly as decimal pairs `m * 10^e` (every numeric
literal the claims exercise is exactly representable, and `==` on doubles
coincides with exact value equality on such pairs), and the process-wide
error channel is represented by the error code that is live in
`g_json_last_error` when the modelled function returns (later
`json_set_error` calls overwrite earlier ones, exactly as in the C).
-/

/-- Byte predicate for `isdigit` (ASCII `0`..`9`), as used by the lexer in
`json_parser.c`. -/
def isDig (c : Nat) : Bool := Nat.ble 48 c && Nat.ble c 57

/-- Byte predicate for `isxdigit` (ASCII hex digits), as used by the
`\uXXXX` escape decoder in `tokenize_string`. -/
def isHex (c : Nat) : Bool :=
  isDig c || (Nat.ble 97 c && Nat.ble c 102) || (Nat.ble 65 c && Nat.ble c 70)

/-- Value of one hex digit, port of `parse_hex_digit` in `json_parser.c`
(returns 0 on a non-hex byte, like the C function). -/
def hexVal (c : Nat) : Nat :=
  if isDig c then c - 48
  else if Nat.ble 97 c && Nat.ble c 102 then c - 97 + 10
  else if Nat.ble 65 c && Nat.ble c 70 then c - 65 + 10
  else 0

/-- Truncation of a byte list at the first NUL byte.  Models the fact that
the C code manipulates NUL-terminated strings: `strlen`, `strcpy`, `strcmp`
and the stringifier's character loop all stop at the first 0 byte. -/
def cstr (l : List Nat) : List Nat := l.takeWhile (fun c => !(c == 0))

/-- ASCII bytes of a Lean string literal; used only to write concrete test
documents readably. -/
def strBytes (s : String) : List Nat := s.data.map Char.toNat

/-- Ten to a natural power, as an integer.  The exponent is split in two so
that concrete evaluation stays within the elaborator's exponentiation
threshold; the value is exactly `10 ^ n`. -/
def pow10 (n : Nat) : Int := Int.ofNat (Nat.pow 10 (n / 2) * Nat.pow 10 (n - n / 2))

/-- Smallest magnitude that `strtod` overflows to infinity (with `ERANGE`)
under round-to-nearest-even: the midpoint `2 ^ 1024 - 2 ^ 970` between the
largest finite binary64 value and `2 ^ 1024`, written as a literal. -/
def dblOvf : Int := 179769313486231580793728971405303415079934132710037826936173778980444968292764750946649017977587207096330286416692887910946555547851940402630657488671505820681908902000708383676273854845817711531764475730270069855571366959622842914819860834936475292719074168444365510704342711559699508093042880177904174497792

/-- Error codes of `JsonErrorCode` in `json_parser.h` (the file-IO and
database codes that the embedded components never raise are omitted).
Constructor names map one to one:
`noErr` = JSON_ERROR_NONE, `syntaxErr` = JSON_ERROR_INVALID_SYNTAX,
`unexpectedTok` = JSON_ERROR_UNEXPECTED_TOKEN,
`untermStr` = JSON_ERROR_UNTERMINATED_STRING,
`invalidNum` = JSON_ERROR_INVALID_NUMBER,
`invalidEsc` = JSON_ERROR_INVALID_ESCAPE,
`unexpectedEof` = JSON_ERROR_UNEXPECTED_EOF,
`invalidUtf8` = JSON_ERROR_INVALID_UTF8,
`stackOverflow` = JSON_ERROR_STACK_OVERFLOW,
`invalidType` = JSON_ERROR_INVALID_TYPE,
`keyNotFound` = JSON_ERROR_KEY_NOT_FOUND,
`idxOutOfBounds` = JSON_ERROR_INDEX_OUT_OF_BOUNDS,
`nullPtr` = JSON_ERROR_NULL_POINTER,
`invalidWs` = JSON_ERROR_INVALID_WHITESPACE,
`invalidSurrogate` = JSON_ERROR_INVALID_SURROGATE,
`numOutOfRange` = JSON_ERROR_NUMBER_OUT_OF_RANGE,
`leadingZero` = JSON_ERROR_LEADING_ZERO. -/
inductive JsonErr where
  | noErr
  | syntaxErr
  | unexpectedTok
  | untermStr
  | invalidNum
  | invalidEsc
  | unexpectedEof
  | invalidUtf8
  | stackOverflow
  | invalidType
  | keyNotFound
  | idxOutOfBounds
  | nullPtr
  | invalidWs
  | invalidSurrogate
  | numOutOfRange
  | leadingZero
deriving DecidableEq, Repr

/-- Finite-or-special IEEE double, the payload of a `JSON_NUMBER` value.
`fin m e` is the finite value `m * 10 ^ e` held exactly (every number in
the verified scenarios is an exact decimal); `inf b` and `nan` are the
values that violate the data-model invariant and can only be constructed by
bypassing `json_create_number`. -/
inductive NumV where
  | fin (m : Int) (e : Int)
  | inf (pos : Bool)
  | nan
deriving DecidableEq, Repr

/-- The value tree of `JsonValue` in `json_parser.h`: a tagged sum with the
six JSON variants.  Strings and object keys are owned byte sequences;
arrays and objects are ordered sequences (the C `count`/`capacity` arrays
are abstracted to lists, capacity being invisible to every claim). -/
inductive JsonValue where
  | null
  | bool (b : Bool)
  | num (n : NumV)
  | str (s : List Nat)
  | arr (elems : List JsonValue)
  | obj (pairs : List (List Nat × JsonValue))

/-- Tokens of the lexer (`TokenType` plus payloads in `json_parser.h`).
`errTok c` is `TOKEN_ERROR` with `c` the code that `next_token` left in the
process-wide error channel when it produced the token. -/
inductive Token where
  | eof
  | tnull
  | ttrue
  | tfalse
  | num (m : Int) (e : Int)
  | str (s : List Nat)
  | lbrace
  | rbrace
  | lbracket
  | rbracket
  | colon
  | comma
  | errTok (code : JsonErr)
deriving Repr

/-- Port of the scalar loop of `skip_whitespace` in `json_parser.c` (the
SIMD path is specified to be observationally identical; it differs only in
not writing the transient `INVALID_WHITESPACE` diagnostic, which `next_token`
overwrites anyway).  Returns the remaining input together with a flag that
is true when the loop stopped by writing `JSON_ERROR_INVALID_WHITESPACE`
into the error channel: a byte at or below `0x20` that is none of space,
tab, newline, carriage return and not NUL. -/
def skipWs : List Nat → List Nat × Bool
  | [] => ([], false)
  | c :: t =>
    if c = 10 then skipWs t
    else if c = 32 || c = 9 || c = 13 then skipWs t
    else if 32 < c || c = 0 then (c :: t, false)
    else (c :: t, true)

/-- Port of `encode_utf8` in `json_parser.c`: UTF-8 bytes of a code point,
`[]` for the unencodable cases (surrogates, beyond U+10FFFF) where the C
returns length 0. -/
def encodeUtf8 (cp : Nat) : List Nat :=
  if cp ≤ 0x7F then [cp]
  else if cp ≤ 0x7FF then [0xC0 + cp / 64, 0x80 + cp % 64]
  else if cp ≤ 0xFFFF then
    if 0xD800 ≤ cp ∧ cp ≤ 0xDFFF then []
    else [0xE0 + cp / 4096, 0x80 + (cp / 64) % 64, 0x80 + cp % 64]
  else if cp ≤ 0x10FFFF then
    [0xF0 + cp / 262144, 0x80 + (cp / 4096) % 64, 0x80 + (cp / 64) % 64, 0x80 + cp % 64]
  else []

/-- Four hex digits read by the `\uXXXX` loop in `tokenize_string`; fails
(like the C loop's `!*t->current || !isxdigit` test) when fewer than four
bytes remain or one of them is not a hex digit. -/
def readHex4 : List Nat → Option (Nat × List Nat)
  | h0 :: h1 :: h2 :: h3 :: rest =>
    if isHex h0 && isHex h1 && isHex h2 && isHex h3 then
      some (((hexVal h0 * 16 + hexVal h1) * 16 + hexVal h2) * 16 + hexVal h3, rest)
    else none
  | _ => none

/-- Loop body of `tokenize_string` in `json_parser.c`, starting just after
the opening quote.  Returns the decoded payload bytes and the input after
the closing quote, or the error code the C function leaves in the error
channel.  Allocation failures are not modelled. -/
def tsGo : Nat → List Nat → List Nat → Except JsonErr (List Nat × List Nat)
  | 0, _, _ => .error .untermStr
  | _ + 1, _, [] => .error .untermStr
  | fuel + 1, acc, c :: rest =>
    if c = 34 then .ok (acc, rest)
    else if c = 0 then .error .untermStr
    else if c = 92 then
      match rest with
      | [] => .error .untermStr
      | e :: rest₁ =>
        if e = 110 then tsGo fuel (acc ++ [10]) rest₁
        else if e = 116 then tsGo fuel (acc ++ [9]) rest₁
        else if e = 114 then tsGo fuel (acc ++ [13]) rest₁
        else if e = 98 then tsGo fuel (acc ++ [8]) rest₁
        else if e = 102 then tsGo fuel (acc ++ [12]) rest₁
        else if e = 34 then tsGo fuel (acc ++ [34]) rest₁
        else if e = 92 then tsGo fuel (acc ++ [92]) rest₁
        else if e = 47 then tsGo fuel (acc ++ [47]) rest₁
        else if e = 117 then
          match readHex4 rest₁ with
          | none => .error .invalidEsc
          | some (cp, rest₂) =>
            if 0xD800 ≤ cp ∧ cp ≤ 0xDBFF then
              if rest₂.headD 0 = 92 ∧ (rest₂.drop 1).headD 0 = 117 then
                match readHex4 (rest₂.drop 2) with
                | none => .error .invalidSurrogate
                | some (lo, rest₃) =>
                  if 0xDC00 ≤ lo ∧ lo ≤ 0xDFFF then
                    match encodeUtf8 (0x10000 + (cp - 0xD800) * 1024 + (lo - 0xDC00)) with
                    | [] => .error .invalidUtf8
                    | bs => tsGo fuel (acc ++ bs) rest₃
                  else .error .invalidSurrogate
              else .error .invalidSurrogate
            else if 0xDC00 ≤ cp ∧ cp ≤ 0xDFFF then .error .invalidSurrogate
            else
              match encodeUtf8 cp with
              | [] => .error .invalidUtf8
              | bs => tsGo fuel (acc ++ bs) rest₂
        else .error .invalidEsc
    else if c < 32 then .error .syntaxErr
    else tsGo fuel (acc ++ [c]) rest

/-- `tokenize_string` on the input after the opening quote. -/
def tokenizeString (l : List Nat) : Except JsonErr (List Nat × List Nat) :=
  tsGo (l.length + 1) [] l

/-- Port of `validate_number_format_strict` in `json_parser.c`, applied by
`next_token` to the scanned number span as a redundant second check. -/
def validateStrict (l : List Nat) : Bool :=
  match l with
  | [] => false
  | _ =>
    let r₀ := if l.headD 0 = 45 then l.drop 1 else l
    match r₀ with
    | [] => false
    | d :: t =>
      let intRest : Option (List Nat) :=
        if d = 48 then
          if isDig (t.headD 0) then none else some t
        else if isDig d then some (t.dropWhile isDig)
        else none
      match intRest with
      | none => false
      | some r₁ =>
        let r₂ : Option (List Nat) :=
          match r₁ with
          | 46 :: t₁ =>
            if isDig (t₁.headD 0) then some (t₁.dropWhile isDig) else none
          | _ => some r₁
        match r₂ with
        | none => false
        | some r₃ =>
          let r₄ : Option (List Nat) :=
            match r₃ with
            | e :: t₂ =>
              if e = 101 || e = 69 then
                let t₃ := if t₂.headD 0 = 43 || t₂.headD 0 = 45 then t₂.drop 1 else t₂
                if isDig (t₃.headD 0) then some (t₃.dropWhile isDig) else none
              else some r₃
            | [] => some r₃
          match r₄ with
          | none => false
          | some r₅ => r₅.isEmpty

/-- Number-span scanner of the `-`/digit case of `next_token` in
`json_parser.c`: consumes sign, integer part, optional fraction and
exponent, reporting the same error codes at the same checks.  Returns the
consumed span and the rest of the input. -/
def numScan (l : List Nat) : Except JsonErr (List Nat × List Nat) :=
  match l with
  | [] => .error .unexpectedEof
  | c :: t =>
    let sr : List Nat × List Nat := if c = 45 then ([45], t) else ([], l)
    match sr.2 with
    | [] => .error .invalidNum
    | d :: t₁ =>
      let intPart : Except JsonErr (List Nat × List Nat) :=
        if d = 48 then
          if isDig (t₁.headD 0) then .error .leadingZero
          else .ok (sr.1 ++ [48], t₁)
        else if isDig d then
          .ok (sr.1 ++ d :: t₁.takeWhile isDig, t₁.dropWhile isDig)
        else .error .invalidNum
      match intPart with
      | .error e => .error e
      | .ok (acc₁, r₁) =>
        let fracPart : Except JsonErr (List Nat × List Nat) :=
          match r₁ with
          | 46 :: t₂ =>
            if isDig (t₂.headD 0) then
              .ok (acc₁ ++ 46 :: t₂.takeWhile isDig, t₂.dropWhile isDig)
            else .error .invalidNum
          | _ => .ok (acc₁, r₁)
        match fracPart with
        | .error e => .error e
        | .ok (acc₂, r₂) =>
          match r₂ with
          | e :: t₃ =>
            if e = 101 || e = 69 then
              let st : List Nat × List Nat :=
                match t₃ with
                | s :: t₄ => if s = 43 || s = 45 then ([s], t₄) else ([], t₃)
                | [] => ([], t₃)
              if isDig (st.2.headD 0) then
                .ok (acc₂ ++ e :: st.1 ++ st.2.takeWhile isDig, st.2.dropWhile isDig)
              else .error .invalidNum
            else .ok (acc₂, r₂)
          | [] => .ok (acc₂, r₂)

/-- Digit list to natural number. -/
def digsToNat (l : List Nat) : Nat := l.foldl (fun a d => 10 * a + (d - 48)) 0

/-- Exact value of a validated decimal span, as the pair `(m, e)` denoting
`m * 10 ^ e`.  This is the exact rational `strtod` is applied to; the
claims settled here only exercise literals on which the binary64 rounding
is the identity or whose magnitude alone decides the outcome. -/
def decOfSpan (l : List Nat) : Int × Int :=
  let neg := l.headD 0 = 45
  let r₀ := if neg then l.drop 1 else l
  let ids := r₀.takeWhile isDig
  let r₁ := r₀.dropWhile isDig
  let fds : List Nat :=
    match r₁ with
    | 46 :: t => t.takeWhile isDig
    | _ => []
  let r₂ : List Nat :=
    match r₁ with
    | 46 :: t => t.dropWhile isDig
    | _ => r₁
  let ex : Int :=
    match r₂ with
    | e :: t =>
      if e = 101 || e = 69 then
        match t with
        | 45 :: t₂ => -(Int.ofNat (digsToNat (t₂.takeWhile isDig)))
        | 43 :: t₂ => Int.ofNat (digsToNat (t₂.takeWhile isDig))
        | _ => Int.ofNat (digsToNat (t.takeWhile isDig))
      else 0
    | [] => 0
  let mag : Int := Int.ofNat (digsToNat (ids ++ fds))
  (if neg then -mag else mag, ex - Int.ofNat fds.length)

/-- Overflow side of `strtod`'s `ERANGE` check: the exact value
`m * 10 ^ e` rounds to ±infinity exactly when its magnitude reaches
`dblOvf`.  (The glibc underflow side of `ERANGE` is not modelled; no claim
exercises it.) -/
def decOvf (m : Int) (e : Int) : Bool :=
  if 0 ≤ e then dblOvf ≤ (m.natAbs : Int) * pow10 e.toNat
  else dblOvf * pow10 (-e).toNat ≤ (m.natAbs : Int)

/-- Port of `next_token` in `json_parser.c`: skips whitespace (dropping the
transient `INVALID_WHITESPACE` diagnostic, which every later
`json_set_error` overwrites — see `skipWs` for the flag), then produces one
token and the remaining input.  An `errTok` records the code live in the
error channel when `next_token` returns `TOKEN_ERROR`. -/
def nextToken (l : List Nat) : Token × List Nat :=
  let r := (skipWs l).1
  match r with
  | [] => (.eof, [])
  | c :: t =>
    if c = 0 then (.eof, r)
    else if c = 123 then (.lbrace, t)
    else if c = 125 then (.rbrace, t)
    else if c = 91 then (.lbracket, t)
    else if c = 93 then (.rbracket, t)
    else if c = 58 then (.colon, t)
    else if c = 44 then (.comma, t)
    else if c = 110 then
      if r.take 4 = strBytes "null" then (.tnull, r.drop 4) else (.errTok .unexpectedTok, r)
    else if c = 116 then
      if r.take 4 = strBytes "true" then (.ttrue, r.drop 4) else (.errTok .unexpectedTok, r)
    else if c = 102 then
      if r.take 5 = strBytes "false" then (.tfalse, r.drop 5) else (.errTok .unexpectedTok, r)
    else if c = 34 then
      match tokenizeString t with
      | .ok (s, rest) => (.str s, rest)
      | .error err => (.errTok err, r)
    else if c = 45 || isDig c then
      match numScan r with
      | .error err => (.errTok err, r)
      | .ok (span, rest) =>
        if validateStrict span then
          let me := decOfSpan span
          if decOvf me.1 me.2 then (.errTok .numOutOfRange, r)
          else (.num me.1 me.2, rest)
        else (.errTok .invalidNum, r)
    else (.errTok .unexpectedTok, r)

/-- Port of `json_object_set` in `json_parser.c` restricted to the cases the
parser and tree algebra reach (no NULL arguments, receiver an object): if a
stored key is `strcmp`-equal to the new key the old value is destroyed and
replaced in place, otherwise a copy of the key (up to its first NUL, as
`strlen`/`strcpy` produce) and the value are appended. -/
def objectSet : List (List Nat × JsonValue) → List Nat → JsonValue →
    List (List Nat × JsonValue)
  | [], k, v => [(cstr k, v)]
  | (k₀, v₀) :: t, k, v =>
    if cstr k₀ = cstr k then (k₀, v) :: t
    else (k₀, v₀) :: objectSet t k v

/-- Port of `json_object_get` in `json_parser.c`: first pair whose stored
key is `strcmp`-equal to the requested key (the `KEY_NOT_FOUND` diagnostic
it writes on a miss is not observable through any claim settled here). -/
def lookupPairs : List (List Nat × JsonValue) → List Nat → Option JsonValue
  | [], _ => none
  | (k₀, v₀) :: t, k => if cstr k₀ = cstr k then some v₀ else lookupPairs t k

/-- MAX_NESTING_DEPTH in `json_parser.c`. -/
def maxDepth : Nat := 1000

/-- Continuation of the recursive-descent parser: the current role of the
token in hand.  `value d tok` is `parse_value` with tokenizer depth `d`;
`arrLoop`/`objLoop` are the element loops of `parse_array`/`parse_object`
after their depth increment, carrying the partially built container. -/
inductive PMode where
  | value (d : Nat) (tok : Token)
  | arrLoop (d : Nat) (acc : List JsonValue) (tok : Token)
  | objLoop (d : Nat) (acc : List (List Nat × JsonValue)) (tok : Token)

/-- Port of the mutually recursive `parse_value` / `parse_array` /
`parse_object` of `json_parser.c`, driven by a fuel counter (two units per
nesting level and loop step suffice; `jsonParse` supplies more).  The error
returned is the code live in the error channel when the C functions return
NULL: in particular every `TOKEN_ERROR` reaching `parse_value` falls into
its `default:` case, which overwrites the lexer's diagnostic with
`JSON_ERROR_UNEXPECTED_TOKEN`. -/
def pstep : Nat → PMode → List Nat → Except JsonErr (JsonValue × List Nat)
  | 0, _, _ => .error .unexpectedEof
  | fuel + 1, .value d tok, inp =>
    match tok with
    | .tnull => .ok (.null, inp)
    | .ttrue => .ok (.bool true, inp)
    | .tfalse => .ok (.bool false, inp)
    | .num m e => .ok (.num (.fin m e), inp)
    | .str s => .ok (.str (cstr s), inp)
    | .lbracket =>
      if maxDepth < d + 1 then .error .stackOverflow
      else
        let tr := nextToken inp
        match tr.1 with
        | .rbracket => .ok (.arr [], tr.2)
        | t₁ => pstep fuel (.arrLoop (d + 1) [] t₁) tr.2
    | .lbrace =>
      if maxDepth < d + 1 then .error .stackOverflow
      else
        let tr := nextToken inp
        match tr.1 with
        | .rbrace => .ok (.obj [], tr.2)
        | t₁ => pstep fuel (.objLoop (d + 1) [] t₁) tr.2
    | .eof => .error .unexpectedEof
    | _ => .error .unexpectedTok
  | fuel + 1, .arrLoop d acc tok, inp =>
    match pstep fuel (.value d tok) inp with
    | .error e => .error e
    | .ok (v, inp₁) =>
      let tr := nextToken inp₁
      match tr.1 with
      | .comma =>
        let tr₂ := nextToken tr.2
        pstep fuel (.arrLoop d (acc ++ [v]) tr₂.1) tr₂.2
      | .rbracket => .ok (.arr (acc ++ [v]), tr.2)
      | _ => .error .unexpectedTok
  | fuel + 1, .objLoop d acc tok, inp =>
    match tok with
    | .str key =>
      let tr := nextToken inp
      match tr.1 with
      | .colon =>
        let tr₂ := nextToken tr.2
        match pstep fuel (.value d tr₂.1) tr₂.2 with
        | .error e => .error e
        | .ok (v, inp₁) =>
          let acc' := objectSet acc key v
          let tr₃ := nextToken inp₁
          match tr₃.1 with
          | .comma =>
            let tr₄ := nextToken tr₃.2
            pstep fuel (.objLoop d acc' tr₄.1) tr₄.2
          | .rbrace => .ok (.obj acc', tr₃.2)
          | _ => .error .unexpectedTok
      | _ => .error .unexpectedTok
    | _ => .error .unexpectedTok

/-- Port of `json_parse_with_error` / `json_parse` in `json_parser.c`,
returning the parsed value or the error code left in the error channel.
The C first takes `strlen` of its input (`cstr`), reads the first token,
runs `parse_value`, and finally requires one trailing `TOKEN_EOF`,
reporting "Extra data" as `JSON_ERROR_UNEXPECTED_TOKEN` otherwise. -/
def jsonParse (s : List Nat) : Except JsonErr JsonValue :=
  let s₀ := cstr s
  let tr := nextToken s₀
  match pstep (2 * s₀.length + 8) (.value 0 tr.1) tr.2 with
  | .error e => .error e
  | .ok (v, rest) =>
    match (nextToken rest).1 with
    | .eof => .ok v
    | _ => .error .unexpectedTok

/-- Key-value pairs inserted one after another with `objectSet`, i.e. the
sequence of `json_object_set` calls that `parse_object`, `json_deep_copy`
and `json_merge` perform while building an object. -/
def objFold : List (List Nat × JsonValue) → List (List Nat × JsonValue) →
    List (List Nat × JsonValue)
  | acc, [] => acc
  | acc, (k, v) :: t => objFold (objectSet acc k v) t

/-- Value of the last occurrence of a key (by `strcmp` equality) in a list
of pairs; the reference semantics for duplicate-key resolution. -/
def lastAssoc : List (List Nat × JsonValue) → List Nat → Option JsonValue
  | [], _ => none
  | (k₀, v₀) :: t, k =>
    match lastAssoc t k with
    | some v => some v
    | none => if cstr k₀ = cstr k then some v₀ else none

/-- Number of pairs whose key is `strcmp`-equal to `k`. -/
def countKey (l : List (List Nat × JsonValue)) (k : List Nat) : Nat :=
  (l.filter (fun p => cstr p.1 == cstr k)).length

/-- IEEE `==` on two exactly-represented doubles `m₁ * 10 ^ e₁` and
`m₂ * 10 ^ e₂`: exact value equality (this also identifies `-0.0` with
`0.0`, which the decimal-pair representation does not distinguish). -/
def decValEq (m₁ e₁ m₂ e₂ : Int) : Bool :=
  if e₂ ≤ e₁ then m₁ * pow10 (e₁ - e₂).toNat == m₂
  else m₁ == m₂ * pow10 (e₂ - e₁).toNat

/-- The exact rational value of the decimal pair `m * 10 ^ e`; the
reference semantics against which `decValEq` is characterised. -/
def decVal (m e : Int) : ℚ := (m : ℚ) * 10 ^ e

/-- IEEE `==` on the number payload, as evaluated by
`val1->data.number_value == val2->data.number_value` in `json_equals`:
`NaN` compares unequal to everything including itself, infinities compare
by sign, finite values by value. -/
def numEq : NumV → NumV → Bool
  | .fin m₁ e₁, .fin m₂ e₂ => decValEq m₁ e₁ m₂ e₂
  | .inf b₁, .inf b₂ => b₁ == b₂
  | _, _ => false

mutual

/-- Port of `json_equals` in `json_utils.c`: structural equality with
byte-wise strings (`strcmp`), IEEE `==` numbers, index-wise arrays, and
objects equal when the counts match and every pair of the first has a
`json_object_get` hit in the second with an equal value. -/
def jsonEquals : JsonValue → JsonValue → Bool
  | .null, .null => true
  | .bool b₁, .bool b₂ => b₁ == b₂
  | .num n₁, .num n₂ => numEq n₁ n₂
  | .str s₁, .str s₂ => cstr s₁ = cstr s₂
  | .arr l₁, .arr l₂ => eqArr l₁ l₂
  | .obj l₁, .obj l₂ => l₁.length == l₂.length && eqPairs l₁ l₂
  | _, _ => false

/-- Element loop of the `JSON_ARRAY` case of `json_equals` (count equality
is subsumed by the structural match). -/
def eqArr : List JsonValue → List JsonValue → Bool
  | [], [] => true
  | v₁ :: t₁, v₂ :: t₂ => jsonEquals v₁ v₂ && eqArr t₁ t₂
  | _, _ => false

/-- Pair loop of the `JSON_OBJECT` case of `json_equals`: each key of the
first operand is looked up in the second. -/
def eqPairs : List (List Nat × JsonValue) → List (List Nat × JsonValue) → Bool
  | [], _ => true
  | (k, v) :: t, l₂ =>
    (match lookupPairs l₂ k with
     | some v' => jsonEquals v v'
     | none => false) && eqPairs t l₂
end

mutual

/-- Port of `json_deep_copy` / `json_deep_copy_internal` in `json_utils.c`
on tree-shaped values (the identity map that tolerates cycles and sharing
has nothing to record on a tree, where no node is visited twice): scalars
are recreated, strings recopied up to their first NUL, arrays rebuilt with
`json_array_append`, objects rebuilt by `json_object_set` in pair order.
`json_create_number` would return NULL for a NaN/infinite payload (the
invariant-violating case); the payload is kept verbatim here, and every
theorem about copies assumes the finiteness invariant. -/
def deepCopy : JsonValue → JsonValue
  | .null => .null
  | .bool b => .bool b
  | .num n => .num n
  | .str s => .str (cstr s)
  | .arr l => .arr (dcArr l)
  | .obj l => .obj (objFold [] (dcPairs l))

/-- Element copies appended in order (`JSON_ARRAY` case of
`json_deep_copy_internal`). -/
def dcArr : List JsonValue → List JsonValue
  | [] => []
  | v :: t => deepCopy v :: dcArr t

/-- Per-pair copies, in order, before `json_object_set` folds them into the
fresh object (`JSON_OBJECT` case of `json_deep_copy_internal`). -/
def dcPairs : List (List Nat × JsonValue) → List (List Nat × JsonValue)
  | [] => []
  | (k, v) :: t => (k, deepCopy v) :: dcPairs t
end

/-- Pairwise distinctness of a key list, used to state the object-key
uniqueness invariant of the data model. -/
def uniqKeys : List (List Nat) → Bool
  | [] => true
  | k :: t => !(t.contains k) && uniqKeys t

mutual

/-- Data-model invariants of §3 of the specification, as a decidable
predicate: numbers are finite (neither NaN nor infinity), and object keys
are unique within each object by `strcmp` comparison, recursively. -/
def wfV : JsonValue → Bool
  | .null => true
  | .bool _ => true
  | .num n => match n with | .fin _ _ => true | _ => false
  | .str _ => true
  | .arr l => wfArr l
  | .obj l => uniqKeys (l.map (fun p => cstr p.1)) && wfPairs l

/-- Invariant check over array elements. -/
def wfArr : List JsonValue → Bool
  | [] => true
  | v :: t => wfV v && wfArr t

/-- Invariant check over object pair values. -/
def wfPairs : List (List Nat × JsonValue) → Bool
  | [] => true
  | (_, v) :: t => wfV v && wfPairs t
end

mutual

/-- Combined object/array nesting depth of a value tree: 0 for scalars, one
more than the deepest child for containers. -/
def depthV : JsonValue → Nat
  | .null => 0
  | .bool _ => 0
  | .num _ => 0
  | .str _ => 0
  | .arr l => 1 + depthArr l
  | .obj l => 1 + depthPairs l

/-- Deepest element of an array. -/
def depthArr : List JsonValue → Nat
  | [] => 0
  | v :: t => max (depthV v) (depthArr t)

/-- Deepest value of an object. -/
def depthPairs : List (List Nat × JsonValue) → Nat
  | [] => 0
  | (_, v) :: t => max (depthV v) (depthPairs t)
end

mutual

/-- Node count of a value tree, the termination measure for the structural
inductions below. -/
def sizeV : JsonValue → Nat
  | .null => 1
  | .bool _ => 1
  | .num _ => 1
  | .str _ => 1
  | .arr l => 1 + sizeArr l
  | .obj l => 1 + sizePairs l

/-- Node count of array elements. -/
def sizeArr : List JsonValue → Nat
  | [] => 0
  | v :: t => sizeV v + sizeArr t

/-- Node count of object pair values. -/
def sizePairs : List (List Nat × JsonValue) → Nat
  | [] => 0
  | (_, v) :: t => sizeV v + sizePairs t
end
/-- Decimal digits of a natural number, most significant first, by repeated
division (fuel-bounded; 400 digits cover every value the stringifier is
applied to). -/
def digsGo : Nat → Nat → List Nat
  | 0, _ => []
  | _ + 1, 0 => []
  | fuel + 1, n => digsGo fuel (n / 10) ++ [48 + n % 10]

/-- `%lld`-style decimal rendering of a natural number. -/
def natDec (n : Nat) : List Nat := if n = 0 then [48] else digsGo 400 n

/-- `%lld` rendering of a signed integer, as `snprintf` produces in the
integer branch of `stringify_value`. -/
def intDec (n : Int) : List Nat :=
  if n < 0 then 45 :: natDec n.natAbs else natDec n.toNat

/-- The integer a finite double `m * 10 ^ e` equals, when it is integral. -/
def decToInt (m e : Int) : Option Int :=
  if 0 ≤ e then some (m * pow10 e.toNat)
  else
    let d := pow10 (-e).toNat
    if m % d = 0 then some (m / d) else none

/-- Lowest `int64_t` value, the lower bound of the `num == (long long)num`
branch of `stringify_value`. -/
def i64min : Int := -9223372036854775808

/-- Highest `int64_t` value. -/
def i64max : Int := 9223372036854775807

/-- Model of `snprintf(buf, _, "%.17g", v)` for the exactly-represented
finite double `m * 10 ^ e`: the value rounded (half to even, as glibc's
correctly-rounded printf does) to 17 significant digits, printed in `%g`
style — fixed notation when the decimal exponent lies in `[-4, 17)`,
otherwise `d.ddd…e±XX` — with trailing zeros of the fraction removed. -/
def g17 (m e : Int) : List Nat :=
  if m = 0 then [48]
  else
    let a := m.natAbs
    let L := (digsGo 400 a).length
    let E : Int := (L : Int) - 1 + e
    let N : Nat :=
      if L ≤ 17 then a * Nat.pow 10 (17 - L)
      else
        let d := Nat.pow 10 (L - 17)
        let q := a / d
        let r := a % d
        if 2 * r < d then q
        else if d < 2 * r then q + 1
        else if q % 2 = 0 then q else q + 1
    let NE : Nat × Int := if N = Nat.pow 10 17 then (Nat.pow 10 16, E + 1) else (N, E)
    let ds := digsGo 64 NE.1
    let sgn : List Nat := if m < 0 then [45] else []
    if NE.2 < -4 ∨ 17 ≤ NE.2 then
      let frac := (ds.drop 1).reverse.dropWhile (fun c => c == 48) |>.reverse
      let ea := NE.2.natAbs
      let eds := if ea < 10 then [48, 48 + ea] else natDec ea
      sgn ++ [ds.headD 48] ++ (if frac.isEmpty then [] else 46 :: frac) ++
        [101, if NE.2 < 0 then 45 else 43] ++ eds
    else if 0 ≤ NE.2 then
      let ip := ds.take (NE.2.toNat + 1)
      let fp := (ds.drop (NE.2.toNat + 1)).reverse.dropWhile (fun c => c == 48) |>.reverse
      sgn ++ ip ++ (if fp.isEmpty then [] else 46 :: fp)
    else
      let zs := List.replicate ((-NE.2).toNat - 1) 48
      let fp := ds.reverse.dropWhile (fun c => c == 48) |>.reverse
      sgn ++ [48, 46] ++ zs ++ fp

/-- The `JSON_NUMBER` branch of `stringify_value` in `json_stringify.c`:
NaN and infinities (constructible only around the invariant) print as
`null`; a value equal to its `long long` truncation prints with `%lld`;
anything else with `%.17g`.  (For a finite value outside the `int64` range
the C conversion is undefined behaviour; on the reference x86-64 target the
comparison is false and the `%.17g` branch is taken, which is what this
model does.) -/
def stringifyNum : NumV → List Nat
  | .nan => strBytes "null"
  | .inf _ => strBytes "null"
  | .fin m e =>
    match decToInt m e with
    | some v => if i64min ≤ v ∧ v ≤ i64max then intDec v else g17 m e
    | none => g17 m e

/-- Lowercase hex digit. -/
def hexDigL (n : Nat) : Nat := if n < 10 then 48 + n else 87 + n

/-- Expansion of one string byte by `escape_and_append_string` in
`json_stringify.c`: the eight short escapes, `\u00XX` for other control
bytes, everything at or above `0x20` verbatim. -/
def escByte (c : Nat) : List Nat :=
  if c = 34 then [92, 34]
  else if c = 92 then [92, 92]
  else if c = 8 then [92, 98]
  else if c = 12 then [92, 102]
  else if c = 10 then [92, 110]
  else if c = 13 then [92, 114]
  else if c = 9 then [92, 116]
  else if c < 32 then
    [92, 117, 48, 48, hexDigL (c / 16 % 16), hexDigL (c % 16)]
  else [c]

/-- Port of `escape_and_append_string`: quote, escaped bytes, quote.  The
C loop stops at the first NUL of the stored string; callers pass the
`cstr`-truncated payload. -/
def escapeStr (s : List Nat) : List Nat := 34 :: (s.map escByte).flatten ++ [34]

/-- The newline-plus-indentation bytes of `append_indent` in
`json_stringify.c`: a newline and two spaces per nesting level. -/
def indentBytes (lvl : Nat) : List Nat := 10 :: List.replicate (2 * lvl) 32

mutual

/-- Port of `stringify_value` in `json_stringify.c` (the NULL-pointer case
cannot arise for a tree value); `p` is the pretty flag and `lvl` the
current `indent_level`. -/
def stringifyV : Bool → Nat → JsonValue → List Nat
  | _, _, .null => strBytes "null"
  | _, _, .bool b => if b then strBytes "true" else strBytes "false"
  | _, _, .num n => stringifyNum n
  | _, _, .str s => escapeStr (cstr s)
  | p, lvl, .arr l =>
    match l with
    | [] => [91, 93]
    | _ => [91] ++ sArr p (lvl + 1) l ++ (if p then indentBytes lvl else []) ++ [93]
  | p, lvl, .obj l =>
    match l with
    | [] => [123, 125]
    | _ => [123] ++ sPairs p (lvl + 1) l ++ (if p then indentBytes lvl else []) ++ [125]

/-- Element loop of `stringify_array`. -/
def sArr : Bool → Nat → List JsonValue → List Nat
  | _, _, [] => []
  | p, lvl, v :: t =>
    (if p then indentBytes lvl else []) ++ stringifyV p lvl v ++
      (if t.isEmpty then [] else [44]) ++ sArr p lvl t

/-- Pair loop of `stringify_object`: escaped key, colon, a space in pretty
mode, then the value. -/
def sPairs : Bool → Nat → List (List Nat × JsonValue) → List Nat
  | _, _, [] => []
  | p, lvl, (k, v) :: t =>
    (if p then indentBytes lvl else []) ++ escapeStr (cstr k) ++ [58] ++
      (if p then [32] else []) ++ stringifyV p lvl v ++
      (if t.isEmpty then [] else [44]) ++ sPairs p lvl t
end

/-- Port of `json_stringify` in `json_stringify.c`: the serialized value,
with a trailing newline when pretty-printing a container root. -/
def jsonStringify (v : JsonValue) (pretty : Bool) : List Nat :=
  stringifyV pretty 0 v ++
    (if pretty && (match v with | .obj _ => true | .arr _ => true | _ => false)
     then [10] else [])
/-- Stream events of `JsonStreamEventType` in `json_parser.h` (`KEY` is
declared but never emitted by `json_streaming.c`).  A `value` event carries
the tree the driver hands to the callback. -/
inductive SEvent where
  | objStart
  | objEnd
  | arrStart
  | arrEnd
  | value (v : JsonValue)
  | errEvt
  | eofEvt

/-- Cross-chunk state of `JsonStreamParser` in `json_streaming.c`: the
append buffer for the current top-level value, the depth counter (a C
`int`, so it can go negative on unmatched closers), and the in-string /
escape-pending flags.  Line, column, the statistics counters and the
buffer's capacity (which only bounds the buffer at 100 MiB, folded into
`processByte`) are not observable through the claims. -/
structure SState where
  buffer : List Nat
  depth : Int
  inString : Bool
  escaped : Bool
deriving Repr

/-- Initial state established by `json_stream_parser_create`. -/
def initStream : SState := ⟨[], 0, false, false⟩

/-- Port of `stream_try_parse_complete_value` in `json_streaming.c` with an
always-continue consumer that records the events: an empty buffer succeeds
silently; a buffer that parses emits `VALUE` and is cleared; an
`UNEXPECTED_EOF` parse keeps waiting; any other parse error emits `ERROR`
and aborts (the `none` state). -/
def tryParseComplete (s : SState) : List SEvent × Option SState :=
  if s.buffer.isEmpty then ([], some s)
  else
    match jsonParse s.buffer with
    | .ok v => ([.value v], some { s with buffer := [] })
    | .error .unexpectedEof => ([], some s)
    | .error _ => ([.errEvt], none)

/-- One iteration of the byte loop of `json_stream_parse_chunk` in
`json_streaming.c`: grow/append the buffer (aborting at the 100 MiB
ceiling), update the string/escape flags, track depth, emit
`OBJECT_START`/`ARRAY_START` when an opener takes the depth to 1 as the
first buffered byte, and on a closer that returns the depth to 0 run the
full parser on the buffer and emit the end event. -/
def processByte (s : SState) (c : Nat) : List SEvent × Option SState :=
  if 104857600 ≤ s.buffer.length + 2 then ([], none)
  else
    let s₁ : SState := { s with buffer := s.buffer ++ [c] }
    if s₁.inString then
      if s₁.escaped then ([], some { s₁ with escaped := false })
      else if c = 92 then ([], some { s₁ with escaped := true })
      else if c = 34 then ([], some { s₁ with inString := false })
      else ([], some s₁)
    else if c = 34 then ([], some { s₁ with inString := true })
    else if c = 123 ∨ c = 91 then
      if 256 ≤ s₁.depth then ([], none)
      else
        let s₂ : SState := { s₁ with depth := s₁.depth + 1 }
        if s₂.depth = 1 ∧ s₂.buffer.length = 1 then
          ([if c = 123 then .objStart else .arrStart], some s₂)
        else ([], some s₂)
    else if c = 125 ∨ c = 93 then
      let s₂ : SState := { s₁ with depth := s₁.depth - 1 }
      if s₂.depth = 0 then
        match tryParseComplete s₂ with
        | (evs, none) => (evs, none)
        | (evs, some s₃) =>
          (evs ++ [if c = 125 then .objEnd else .arrEnd], some s₃)
      else ([], some s₂)
    else ([], some s₁)

/-- The byte loop of `json_stream_parse_chunk` over a whole chunk,
accumulating events and aborting (state `none`) when the C function would
return false. -/
def feedBytes : SState → List Nat → List SEvent × Option SState
  | s, [] => ([], some s)
  | s, c :: t =>
    match processByte s c with
    | (evs, none) => (evs, none)
    | (evs, some s') =>
      let r := feedBytes s' t
      (evs ++ r.1, r.2)

/-- End-of-chunk flush of `json_stream_parse_chunk`: with the depth at 0
and bytes buffered, try to parse them as a complete top-level value. -/
def flushState (s : SState) : List SEvent × Option SState :=
  if s.depth = 0 ∧ ¬s.buffer.isEmpty then tryParseComplete s else ([], some s)

/-- Port of `json_stream_parse_chunk`: the 100 MiB per-chunk guard, the
byte loop, then the end-of-chunk flush. -/
def feedChunk (s : SState) (bytes : List Nat) : List SEvent × Option SState :=
  if 104857600 < bytes.length then ([], none)
  else
    match feedBytes s bytes with
    | (evs, none) => (evs, none)
    | (evs, some s') =>
      let r := flushState s'
      (evs ++ r.1, r.2)

/-- Successive `json_stream_parse_chunk` calls, stopping after a failed
one, as `json_stream_parse_file` and every conforming caller do. -/
def feedChunks : SState → List (List Nat) → List SEvent × Option SState
  | s, [] => ([], some s)
  | s, c :: t =>
    match feedChunk s c with
    | (evs, none) => (evs, none)
    | (evs, some s') =>
      let r := feedChunks s' t
      (evs ++ r.1, r.2)

/-- The `VALUE` payloads among a list of stream events. -/
def valuesOf (l : List SEvent) : List JsonValue :=
  l.foldr (fun ev acc => match ev with | .value v => v :: acc | _ => acc) []

/-- Whether a parse outcome is the recoverable `UNEXPECTED_EOF` that makes
the stream driver keep waiting for more bytes. -/
def isEofErr : Except JsonErr JsonValue → Bool
  | .error .unexpectedEof => true
  | _ => false

/-- Decidable form of "the end-of-chunk flush at this state is a no-op":
the driver is inside a container (depth not 0), or nothing is buffered, or
the buffered bytes are an incomplete value (the parser reports
`UNEXPECTED_EOF`, which the driver treats as "wait for more bytes"). -/
def flushNoopB (s : SState) : Bool :=
  !(s.depth == 0) || s.buffer.isEmpty || isEofErr (jsonParse s.buffer)

/-- Decidable condition on a chunking: at every internal chunk boundary,
the state reached by the byte loop satisfies `flushNoopB` (or the run has
already aborted). -/
def boundariesOk (s : SState) (chunks : List (List Nat)) : Bool :=
  (List.range (chunks.length - 1)).all (fun i =>
    match (feedBytes s ((chunks.take (i + 1)).flatten)).2 with
    | none => true
    | some s₁ => flushNoopB s₁)
/-- `atoi` on a path fragment whose first byte the caller has checked to be
a minus sign or digit: optional sign, then leading digits. -/
def atoiLead (l : List Nat) : Int :=
  match l with
  | 45 :: t => -(Int.ofNat (digsToNat (t.takeWhile isDig)))
  | 43 :: t => Int.ofNat (digsToNat (t.takeWhile isDig))
  | _ => Int.ofNat (digsToNat (l.takeWhile isDig))

/-- `atof` on a filter comparison operand, as the exact decimal pair it
denotes: optional sign, digits, optional fraction, optional exponent (an
exponent letter without digits contributes nothing, as in C). -/
def atofLead (l : List Nat) : Int × Int :=
  let sr : Bool × List Nat :=
    match l with
    | 45 :: t => (true, t)
    | 43 :: t => (false, t)
    | _ => (false, l)
  let ids := sr.2.takeWhile isDig
  let r₁ := sr.2.dropWhile isDig
  let fr : List Nat × List Nat :=
    match r₁ with
    | 46 :: t => (t.takeWhile isDig, t.dropWhile isDig)
    | _ => ([], r₁)
  let ex : Int :=
    match fr.2 with
    | e :: t =>
      if e = 101 ∨ e = 69 then
        match t with
        | 45 :: t₂ => -(Int.ofNat (digsToNat (t₂.takeWhile isDig)))
        | 43 :: t₂ => Int.ofNat (digsToNat (t₂.takeWhile isDig))
        | _ => Int.ofNat (digsToNat (t.takeWhile isDig))
      else 0
    | [] => 0
  let mag : Int := Int.ofNat (digsToNat (ids ++ fr.1))
  (if sr.1 then -mag else mag, ex - Int.ofNat fr.1.length)

/-- Port of `path_matches_filter` in `json_advanced.c`: parse `@.key OP
value`, look the key up in the element, compare with `==`/`!=` (strings by
`strcmp`, numbers against `atof` of the operand, other field types never
match). -/
def pathMatchesFilter (item : JsonValue) (filter : List Nat) : Bool :=
  if filter.headD 0 ≠ 64 then true
  else
    let f₁ := filter.drop 1
    let f₂ := if f₁.headD 0 = 46 then f₁.drop 1 else f₁
    let notOp : Nat → Bool := fun c => !(c == 61 || c == 33 || c == 60 || c == 62)
    let key := f₂.takeWhile notOp
    let rest := f₂.dropWhile notOp
    let fieldv : Option JsonValue :=
      match item with
      | .obj l => lookupPairs l key
      | _ => none
    match fieldv with
    | none => false
    | some field =>
      let opChars := rest.takeWhile (fun c => c == 61 || c == 33 || c == 60 || c == 62)
      let op := opChars.take 2
      let valRaw := (rest.drop (min 2 opChars.length)).takeWhile (fun c => !(c == 93))
      let valStr :=
        if valRaw.headD 0 = 34 ∨ valRaw.headD 0 = 39 then (valRaw.drop 1).dropLast
        else valRaw
      if op = [61, 61] then
        match field with
        | .str s => cstr s = valStr
        | .num n =>
          let a := atofLead valStr
          numEq n (.fin a.1 a.2)
        | _ => false
      else if op = [33, 61] then
        match field with
        | .str s => cstr s ≠ valStr
        | .num n =>
          let a := atofLead valStr
          !(numEq n (.fin a.1 a.2))
        | _ => false
      else false

/-- Walk consuming bytes until the parenthesis depth (starting from the
given value) returns to zero, mirroring the filter-extraction loop of
`json_path_query`; returns the consumed bytes (closing parenthesis
included) and the remainder. -/
def parenScanGo (depth : Int) : List Nat → List Nat × List Nat
  | [] => ([], [])
  | ch :: t =>
    if depth ≤ 0 then ([], ch :: t)
    else
      let d' := depth + (if ch = 40 then 1 else 0) - (if ch = 41 then 1 else 0)
      let r := parenScanGo d' t
      (ch :: r.1, r.2)

/-- Result of the modelled `json_path_query`: a fresh tree, the NULL
return (failed lookup, type mismatch, or malformed path), or `oob` marking
the undefined behaviour the C slice loop commits when it dereferences
`arr->values[i]` at a negative index. -/
inductive QRes where
  | val (v : JsonValue)
  | noVal
  | oob

/-- Step loop of `json_path_query` in `json_advanced.c`, with the cursor
`cur` holding the freshly owned intermediate tree.  Each branch is a direct
port: `.` descent / `..` no-op / `.*` object-values wildcard; `[` with `*`
(keep), `?(…)` (filter an array), a number (index, negative counted from
the end), or a slice `start:end` (`end` defaulting to the array length when
omitted or negative, the element loop running from `start_idx` while below
both `actual_end` and the length — a negative `start_idx` makes its first
iteration read `values[start_idx]` out of bounds, reported as `oob`). -/
def pqGo : Nat → JsonValue → List Nat → QRes
  | 0, cur, _ => .val cur
  | _ + 1, cur, [] => .val cur
  | fuel + 1, cur, c :: ptr =>
    if c = 46 then
      match ptr with
      | 46 :: ptr₁ => pqGo fuel cur ptr₁
      | 42 :: ptr₁ =>
        let cur' : JsonValue :=
          match cur with
          | .obj l => .arr (l.map (fun p => deepCopy p.2))
          | x => x
        pqGo fuel cur' ptr₁
      | _ =>
        let notSep : Nat → Bool := fun b => !(b == 46 || b == 91)
        let key := ptr.takeWhile notSep
        let ptr₁ := ptr.dropWhile notSep
        match cur with
        | .obj l =>
          match lookupPairs l key with
          | some nxt => pqGo fuel (deepCopy nxt) ptr₁
          | none => .noVal
        | _ => .noVal
    else if c = 91 then
      match ptr with
      | 42 :: ptr₁ =>
        pqGo fuel cur ((ptr₁.dropWhile (fun b => !(b == 93))).drop 1)
      | 63 :: ptr₁ =>
        let ptr₂ := if ptr₁.headD 0 = 40 then ptr₁.drop 1 else ptr₁
        let sc := parenScanGo 1 ptr₂
        let filter := sc.1.dropLast
        let cur' : JsonValue :=
          match cur with
          | .arr l => .arr ((l.filter (fun it => pathMatchesFilter it filter)).map deepCopy)
          | x => x
        pqGo fuel cur' ((sc.2.dropWhile (fun b => !(b == 93))).drop 1)
      | _ =>
        let numByte : Nat → Bool := fun b => b == 45 || isDig b
        let hasNum := ptr.headD 0 = 45 ∨ isDig (ptr.headD 0)
        let sIdx : Int := if hasNum then atoiLead ptr else 0
        let ptr₁ := if hasNum then ptr.dropWhile numByte else ptr
        let isSlice := ptr₁.headD 0 = 58
        let er : Int × List Nat :=
          if isSlice then
            let t := ptr₁.drop 1
            if t.headD 0 = 45 ∨ isDig (t.headD 0) then (atoiLead t, t.dropWhile numByte)
            else (-1, t)
          else (-1, ptr₁)
        let ptr₃ := (er.2.dropWhile (fun b => !(b == 93))).drop 1
        match cur with
        | .arr l =>
          if isSlice then
            let len : Int := l.length
            let aEnd : Int := if er.1 < 0 then len else er.1
            let stop : Int := min aEnd len
            if sIdx < stop then
              if sIdx < 0 then .oob
              else
                pqGo fuel
                  (.arr (((l.drop sIdx.toNat).take (stop - sIdx).toNat).map deepCopy)) ptr₃
            else pqGo fuel (.arr []) ptr₃
          else
            let adj : Int := if sIdx < 0 then (l.length : Int) + sIdx else sIdx
            if 0 ≤ adj ∧ adj < (l.length : Int) then
              match l.get? adj.toNat with
              | some item => pqGo fuel (deepCopy item) ptr₃
              | none => .noVal
            else .noVal
        | _ => .noVal
    else pqGo fuel cur ptr

/-- Port of `json_path_query` in `json_advanced.c`: requires the leading
`$` (else `INVALID_SYNTAX` and NULL), deep-copies the root, then walks the
path steps. -/
def pathQuery (root : JsonValue) (path : List Nat) : QRes :=
  match path with
  | 36 :: rest => pqGo (rest.length + 1) (deepCopy root) rest
  | _ => .noVal
/-- One object/array opener: `[` or the object opener `{"k":` that places
the next value one level deeper. -/
def openBytes (b : Bool) : List Nat := if b then [91] else [123, 34, 107, 34, 58]

/-- A descending chain of openers, one nesting level each. -/
def opensBytes : List Bool → List Nat
  | [] => []
  | b :: t => openBytes b ++ opensBytes t

/- ------------------------------------------------------------------ -/
/- Theorems.                                                           -/
/- ------------------------------------------------------------------ -/

/-- Unfolding lemma: `skipWs` on a cons. -/
theorem skipWs_cons (c : Nat) (l : List Nat) :
    skipWs (c :: l) =
      if c = 10 then skipWs l
      else if c = 32 || c = 9 || c = 13 then skipWs l
      else if 32 < c || c = 0 then (c :: l, false)
      else (c :: l, true) := by
  simp [skipWs]
/-- Unfolding lemma: `nextToken` on input whose first byte is a bad
whitespace byte (below `0x21`, not whitespace, not NUL): `skip_whitespace`
stops on it having recorded `INVALID_WHITESPACE`, the token switch matches
no case, and its fall-through records `JSON_ERROR_UNEXPECTED_TOKEN`. -/
theorem nextToken_bad_ws (c : Nat) (l : List Nat) (h1 : c < 33)
    (h2 : ¬(c = 32 ∨ c = 9 ∨ c = 10 ∨ c = 13)) (h3 : c ≠ 0) :
    nextToken (c :: l) = (.errTok .unexpectedTok, c :: l) := by
  push_neg at h2
  obtain ⟨n32, n9, n10, n13⟩ := h2
  have hsw : skipWs (c :: l) = (c :: l, true) := by
    rw [skipWs_cons]
    rw [if_neg n10, if_neg (by simp [n32, n9, n13]),
      if_neg (by simp; omega)]
  simp only [nextToken, hsw]
  rw [if_neg h3]
  repeat rw [if_neg (by omega : ¬_)]
  rw [if_neg (by simp [isDig, Nat.ble_eq]; omega)]

/-- Evaluation of `pstep` on an error token at positive fuel. -/
theorem pstep_errTok (fuel : Nat) (d : Nat) (e : JsonErr) (inp : List Nat) :
    pstep (fuel + 1) (.value d (.errTok e)) inp = .error .unexpectedTok := by
  simp [pstep]

/-- C9: the lexer accepts exactly the whitespace bytes 0x20, 0x09, 0x0A,
0x0D, and `skip_whitespace` flags any other byte below 0x21 as
`INVALID_WHITESPACE` — but `json_parse` does not report that code: the
fall-through of `next_token`'s switch overwrites it, so the reported code
on such an input is `UNEXPECTED_TOKEN` (shown generally for a document
consisting of the bad byte, and on the byte 0x01 alone and between tokens
of `[1,\x012]`). -/
theorem whitespace_error_overwritten :
    (∀ c l, (c = 32 ∨ c = 9 ∨ c = 10 ∨ c = 13) → skipWs (c :: l) = skipWs l) ∧
    (∀ c, c < 33 → ¬(c = 32 ∨ c = 9 ∨ c = 10 ∨ c = 13) → c ≠ 0 →
      (skipWs [c]).2 = true ∧ jsonParse [c] = .error .unexpectedTok) ∧
    skipWs [1] = ([1], true) ∧
    jsonParse [1] = .error .unexpectedTok ∧
    jsonParse [91, 49, 44, 1, 50, 93] = .error .unexpectedTok ∧
    JsonErr.unexpectedTok ≠ .invalidWs := by
  refine ⟨?_, ?_, rfl, rfl, rfl, by decide⟩
  · intro c l h
    rw [skipWs_cons]
    rcases h with h | h | h | h <;> simp [h]
  · intro c h1 h2 h3
    constructor
    · have := h2
      push_neg at this
      obtain ⟨n32, n9, n10, n13⟩ := this
      rw [skipWs_cons]
      rw [if_neg n10, if_neg (by simp [n32, n9, n13]), if_neg (by simp; omega)]
    · have hc : cstr [c] = [c] := by simp [cstr, h3]
      simp only [jsonParse, hc]
      rw [nextToken_bad_ws c [] h1 h2 h3]
      simp only [List.length_cons, List.length_nil]
      rw [show 2 * (0 + 1) + 8 = 9 + 1 by omega]
      rw [pstep_errTok]

/-- C9 (witness): the general bad-whitespace fact applied at the concrete
byte 0x01. -/
theorem whitespace_error_overwritten_witness :
    (skipWs [1]).2 = true ∧ jsonParse [1] = .error .unexpectedTok :=
  whitespace_error_overwritten.2.1 1 (by omega) (by omega) (by omega)
/-- C5 (counterexample): the claim predicts `LEADING_ZERO` as the reported
error code for the input `01`, but `json_parse` reports
`UNEXPECTED_TOKEN`: the lexer's `TOKEN_ERROR` falls into `parse_value`'s
`default:` case, which overwrites the diagnostic. -/
theorem number_boundary_cex :
    jsonParse (strBytes "01") = .error .unexpectedTok ∧
    JsonErr.unexpectedTok ≠ .leadingZero :=
  ⟨rfl, by decide⟩

/-- C5 (amended): `0` and `-0` parse successfully as numbers, and the four
error inputs all fail — but the code `json_parse` reports is
`UNEXPECTED_TOKEN` in every case.  The claimed codes survive only inside
the lexer: `next_token` returns `TOKEN_ERROR` having recorded
`LEADING_ZERO` for `01`, `NUMBER_OUT_OF_RANGE` for `1e309` (the exact
value `10^309` reaches the binary64 overflow threshold) and
`INVALID_NUMBER` for `1.`, while `.5` never reaches the number scanner at
all (`.` matches no switch case, so the lexer itself records
`UNEXPECTED_TOKEN`); `parse_value`'s `default:` case then overwrites each
lexer code with `UNEXPECTED_TOKEN`. -/
theorem number_boundary_codes :
    jsonParse (strBytes "0") = .ok (.num (.fin 0 0)) ∧
    jsonParse (strBytes "-0") = .ok (.num (.fin 0 0)) ∧
    (nextToken (strBytes "01")).1 = .errTok .leadingZero ∧
    jsonParse (strBytes "01") = .error .unexpectedTok ∧
    (nextToken (strBytes "1e309")).1 = .errTok .numOutOfRange ∧
    jsonParse (strBytes "1e309") = .error .unexpectedTok ∧
    (nextToken (strBytes ".5")).1 = .errTok .unexpectedTok ∧
    jsonParse (strBytes ".5") = .error .unexpectedTok ∧
    (nextToken (strBytes "1.")).1 = .errTok .invalidNum ∧
    jsonParse (strBytes "1.") = .error .unexpectedTok ∧
    jsonParse (strBytes "1e308") = .ok (.num (.fin 1 308)) :=
  ⟨rfl, rfl, rfl, rfl, rfl, rfl, rfl, rfl, rfl, rfl, rfl⟩

/-- C7: evaluating the slice `[-1:2]` on the three-element array `[1,2,3]`
through `json_path_query` reads `arr->values[-1]`: with `start_idx = -1`
and `actual_end = 2` the slice loop's first iteration dereferences a
position outside the array (undefined behaviour in the C, `oob` in the
model) — the claimed clamping of `start` to `[0,len]` does not happen.
Negative `end` is not clamped to 0 either but makes `actual_end` default
to the length (`$[0:-1]` returns all three elements), while in-range and
overlong slices behave as claimed. -/
theorem path_slice_oob :
    pathQuery (.arr [.num (.fin 1 0), .num (.fin 2 0), .num (.fin 3 0)])
      (strBytes "$[-1:2]") = .oob ∧
    pathQuery (.arr [.num (.fin 1 0), .num (.fin 2 0), .num (.fin 3 0)])
      (strBytes "$[0:-1]") =
      .val (.arr [.num (.fin 1 0), .num (.fin 2 0), .num (.fin 3 0)]) ∧
    pathQuery (.arr [.num (.fin 1 0), .num (.fin 2 0), .num (.fin 3 0)])
      (strBytes "$[0:2]") = .val (.arr [.num (.fin 1 0), .num (.fin 2 0)]) ∧
    pathQuery (.arr [.num (.fin 1 0), .num (.fin 2 0), .num (.fin 3 0)])
      (strBytes "$[1:99]") = .val (.arr [.num (.fin 2 0), .num (.fin 3 0)]) :=
  ⟨rfl, rfl, rfl, rfl⟩

/-- C6: `json_stringify` renders a Number that equals its 64-bit signed
truncation in decimal integer form, any other finite value with `%.17g`,
and an infinity or NaN payload (constructible only around the finiteness
invariant) as exactly the four bytes `null`; concrete instances for each
branch follow. -/
theorem number_stringify_format :
    (∀ m e, jsonStringify (.num (.fin m e)) false =
      match decToInt m e with
      | some v => if i64min ≤ v ∧ v ≤ i64max then intDec v else g17 m e
      | none => g17 m e) ∧
    (∀ b, jsonStringify (.num (.inf b)) false = [110, 117, 108, 108]) ∧
    jsonStringify (.num .nan) false = [110, 117, 108, 108] ∧
    jsonStringify (.num (.fin 3 0)) false = [51] ∧
    jsonStringify (.num (.fin (-42) 0)) false = strBytes "-42" ∧
    jsonStringify (.num (.fin 1 (-1))) false = strBytes "0.1" ∧
    jsonStringify (.num (.fin (-5) (-1))) false = strBytes "-0.5" ∧
    jsonStringify (.num (.fin 1 300)) false = strBytes "1e+300" ∧
    jsonStringify (.num (.fin 9223372036854775807 0)) false =
      strBytes "9223372036854775807" :=
  ⟨fun m e => by simp [jsonStringify, stringifyV, stringifyNum],
   fun b => rfl, rfl, rfl, rfl, rfl, rfl, rfl, rfl⟩
/-- `cstr` truncation is idempotent. -/
theorem cstr_idem (l : List Nat) : cstr (cstr l) = cstr l := by
  induction l with
  | nil => rfl
  | cons c t ih =>
    by_cases h : c = 0
    · simp [cstr, h]
    · simpa [cstr, h] using ih

/-- Unfolding lemma: `lookupPairs` on a cons cell. -/
theorem lookupPairs_cons (k₀ : List Nat) (v₀ : JsonValue)
    (t : List (List Nat × JsonValue)) (k : List Nat) :
    lookupPairs ((k₀, v₀) :: t) k =
      if cstr k₀ = cstr k then some v₀ else lookupPairs t k := rfl

/-- Unfolding lemma: `objectSet` on a cons cell. -/
theorem objectSet_cons (k₀ : List Nat) (v₀ : JsonValue)
    (t : List (List Nat × JsonValue)) (k : List Nat) (v : JsonValue) :
    objectSet ((k₀, v₀) :: t) k v =
      if cstr k₀ = cstr k then (k₀, v) :: t else (k₀, v₀) :: objectSet t k v := rfl

/-- Per-key pair count of a cons cell. -/
theorem countKey_cons (k₀ : List Nat) (v₀ : JsonValue)
    (t : List (List Nat × JsonValue)) (k : List Nat) :
    countKey ((k₀, v₀) :: t) k =
      (if cstr k₀ = cstr k then 1 else 0) + countKey t k := by
  by_cases h : cstr k₀ = cstr k <;>
    simp [countKey, List.filter_cons, h, Nat.add_comm]

/-- Effect of one `json_object_set` on a later `json_object_get`: the new
value is found under the written key (by `strcmp` equality), every other
key is unaffected. -/
theorem lookup_objectSet (acc : List (List Nat × JsonValue)) (k' : List Nat)
    (v : JsonValue) (k : List Nat) :
    lookupPairs (objectSet acc k' v) k =
      if cstr k = cstr k' then some v else lookupPairs acc k := by
  induction acc with
  | nil =>
    by_cases h : cstr k = cstr k'
    · simp [objectSet, lookupPairs, cstr_idem, h]
    · simp [objectSet, lookupPairs, cstr_idem, h, Ne.symm h]
  | cons p t ih =>
    obtain ⟨k₀, v₀⟩ := p
    rw [objectSet_cons]
    by_cases h₀ : cstr k₀ = cstr k'
    · rw [if_pos h₀, lookupPairs_cons, lookupPairs_cons]
      by_cases hk : cstr k₀ = cstr k
      · rw [if_pos hk, if_pos hk, if_pos (hk.symm.trans h₀)]
      · rw [if_neg hk, if_neg hk,
          if_neg (fun hh : cstr k = cstr k' => hk (h₀.trans hh.symm))]
    · rw [if_neg h₀, lookupPairs_cons, lookupPairs_cons, ih]
      by_cases hk : cstr k₀ = cstr k
      · rw [if_pos hk, if_pos hk,
          if_neg (fun hh : cstr k = cstr k' => h₀ (hk.trans hh))]
      · rw [if_neg hk, if_neg hk]

/-- Lookup after a whole sequence of `json_object_set` calls: the last
write to a key wins; keys never written read from the initial object. -/
theorem lookup_objFold (ps : List (List Nat × JsonValue))
    (acc : List (List Nat × JsonValue)) (k : List Nat) :
    lookupPairs (objFold acc ps) k =
      match lastAssoc ps k with
      | some v => some v
      | none => lookupPairs acc k := by
  induction ps generalizing acc with
  | nil => simp [objFold, lastAssoc]
  | cons p t ih =>
    obtain ⟨k₀, v₀⟩ := p
    simp only [objFold, lastAssoc]
    rw [ih]
    cases h : lastAssoc t k with
    | some v => simp
    | none =>
      simp only [lookup_objectSet]
      by_cases hk : cstr k = cstr k₀
      · rw [if_pos hk, if_pos hk.symm]
      · rw [if_neg hk, if_neg (Ne.symm hk)]

/-- `json_object_set` with a key that is not `strcmp`-equal to `k` leaves
the number of `k`-keyed pairs unchanged. -/
theorem countKey_objectSet_other (acc : List (List Nat × JsonValue))
    (k' : List Nat) (v : JsonValue) (k : List Nat) (h : cstr k ≠ cstr k') :
    countKey (objectSet acc k' v) k = countKey acc k := by
  induction acc with
  | nil =>
    simp [objectSet, countKey, List.filter_cons, cstr_idem, Ne.symm h]
  | cons p t ih =>
    obtain ⟨k₀, v₀⟩ := p
    rw [objectSet_cons]
    by_cases h₀ : cstr k₀ = cstr k'
    · rw [if_pos h₀, countKey_cons, countKey_cons]
    · rw [if_neg h₀, countKey_cons, countKey_cons, ih]

/-- One `json_object_set` keeps the per-key pair count at most one (it
replaces in place when the key is present and appends one pair
otherwise). -/
theorem countKey_objectSet_le (acc : List (List Nat × JsonValue))
    (k' : List Nat) (v : JsonValue) (k : List Nat) :
    countKey (objectSet acc k' v) k ≤ max (countKey acc k) 1 := by
  induction acc with
  | nil =>
    by_cases hk : cstr k' = cstr k <;>
      simp [objectSet, countKey, List.filter_cons, cstr_idem, hk]
  | cons p t ih =>
    obtain ⟨k₀, v₀⟩ := p
    rw [objectSet_cons]
    by_cases h₀ : cstr k₀ = cstr k'
    · rw [if_pos h₀, countKey_cons, countKey_cons]
      exact le_max_left _ _
    · rw [if_neg h₀, countKey_cons, countKey_cons]
      by_cases hk : cstr k₀ = cstr k
      · have hne : cstr k ≠ cstr k' := fun hh => h₀ (hk.trans hh)
        rw [countKey_objectSet_other t k' v k hne]
        exact le_max_left _ _
      · rw [if_neg hk]
        simp only [Nat.zero_add]
        exact le_trans ih (by simp)

/-- The per-key pair count stays at most one across a whole
`json_object_set` sequence. -/
theorem countKey_objFold_le (ps : List (List Nat × JsonValue))
    (acc : List (List Nat × JsonValue)) (k : List Nat)
    (h : countKey acc k ≤ 1) : countKey (objFold acc ps) k ≤ 1 := by
  induction ps generalizing acc with
  | nil => simpa [objFold] using h
  | cons p t ih =>
    obtain ⟨k₀, v₀⟩ := p
    simp only [objFold]
    refine ih _ ?_
    have := countKey_objectSet_le acc k₀ v₀ k
    omega

/-- C3: duplicate object keys resolve without error to the value of the
last occurrence.  Whatever pair sequence an object literal supplies (first
conjunct, over all sequences `ps`), the object built by `parse_object`'s
`json_object_set` calls maps each key to the last value bound to it, and
holds each key at most once (second conjunct); in particular
`{"a":1,"a":2}` parses to an object of size one whose key `a` is bound to
the number 2. -/
theorem dup_keys_last_wins :
    (∀ ps k, lookupPairs (objFold [] ps) k = lastAssoc ps k) ∧
    (∀ ps k, countKey (objFold [] ps) k ≤ 1) ∧
    jsonParse (strBytes "\x7b\"a\":1,\"a\":2\x7d") =
      .ok (.obj [([97], .num (.fin 2 0))]) ∧
    (jsonParse (strBytes "\x7b\"a\":1,\"a\":2\x7d")).map
      (fun v => match v with | .obj l => l.length | _ => 0) = .ok 1 ∧
    (jsonParse (strBytes "\x7b\"a\":1,\"a\":2\x7d")).map
      (fun v => match v with | .obj l => lookupPairs l [97] | _ => none) =
      .ok (some (.num (.fin 2 0))) := by
  refine ⟨?_, ?_, rfl, rfl, rfl⟩
  · intro ps k
    rw [lookup_objFold]
    cases lastAssoc ps k <;> simp [lookupPairs]
  · intro ps k
    exact countKey_objFold_le ps [] k (by simp [countKey])
/-- A start event can only be emitted while the driver's buffer was empty
before the opener was appended (`buffer_size == 1` right after the append),
at depth 0, outside a string, for an opening brace or bracket. -/
theorem start_event_needs_empty (s : SState) (c : Nat)
    (h : SEvent.objStart ∈ (processByte s c).1 ∨
         SEvent.arrStart ∈ (processByte s c).1) :
    s.buffer = [] ∧ s.depth = 0 ∧ s.inString = false ∧ (c = 123 ∨ c = 91) := by
  by_cases hcap : 104857600 ≤ s.buffer.length + 2
  · simp [processByte, hcap] at h
  by_cases hstr : s.inString
  · by_cases hesc : s.escaped
    · simp [processByte, hcap, hstr, hesc] at h
    · by_cases h92 : c = 92
      · simp [processByte, hcap, hstr, hesc, h92] at h
      · by_cases h34 : c = 34 <;>
          simp [processByte, hcap, hstr, hesc, h92, h34] at h
  by_cases h34 : c = 34
  · simp [processByte, hcap, hstr, h34] at h
  by_cases hop : c = 123 ∨ c = 91
  · by_cases hdeep : (256 : Int) ≤ s.depth
    · simp [processByte, hcap, hstr, h34, hop, hdeep] at h
    · by_cases hfirst : s.depth + 1 = 1 ∧ s.buffer.length + 1 = 1
      · refine ⟨?_, ?_, ?_, hop⟩
        · have := hfirst.2
          cases hb : s.buffer with
          | nil => rfl
          | cons x xs => rw [hb] at this; simp at this
        · have := hfirst.1; omega
        · simpa using hstr
      · exfalso
        have hpb : (processByte s c).1 = [] := by
          simp only [processByte, if_neg hcap, if_neg hstr, if_neg h34,
            if_pos hop, if_neg hdeep]
          rw [if_neg]
          simpa using hfirst
        rw [hpb] at h
        simp at h
  by_cases hcl : c = 125 ∨ c = 93
  · rcases hcl with h125 | h93
    · subst h125
      by_cases hz : s.depth - 1 = 0
      · by_cases hbe : (s.buffer ++ [125]).isEmpty
        · simp [processByte, hcap, hstr, tryParseComplete, hz, hbe] at h
        · rcases hp : jsonParse (s.buffer ++ [125]) with err | v
          · cases err <;>
              simp [processByte, hcap, hstr, tryParseComplete, hz, hbe, hp] at h
          · simp [processByte, hcap, hstr, tryParseComplete, hz, hbe, hp] at h
      · simp [processByte, hcap, hstr, hz] at h
    · subst h93
      by_cases hz : s.depth - 1 = 0
      · by_cases hbe : (s.buffer ++ [93]).isEmpty
        · simp [processByte, hcap, hstr, tryParseComplete, hz, hbe] at h
        · rcases hp : jsonParse (s.buffer ++ [93]) with err | v
          · cases err <;>
              simp [processByte, hcap, hstr, tryParseComplete, hz, hbe, hp] at h
          · simp [processByte, hcap, hstr, tryParseComplete, hz, hbe, hp] at h
      · simp [processByte, hcap, hstr, hz] at h
  · simp [processByte, hcap, hstr, h34, hop, hcl] at h
/-- C10: `json_stream_parse_chunk` emits `OBJECT_START`/`ARRAY_START` only
when the opener that raises the depth from 0 to 1 is the very first byte in
the driver's buffer (first conjunct, over every state and byte); with a
leading space buffered before the top-level `[`, the feed of ` [1]` emits
no `ARRAY_START` although `VALUE` and `ARRAY_END` are still emitted, while
the same document without the space emits all three. -/
theorem stream_start_event_first_byte :
    (∀ (s : SState) (c : Nat),
      SEvent.objStart ∈ (processByte s c).1 ∨
        SEvent.arrStart ∈ (processByte s c).1 →
      s.buffer = [] ∧ s.depth = 0 ∧ s.inString = false ∧ (c = 123 ∨ c = 91)) ∧
    feedChunk initStream (strBytes " [1]") =
      ([.value (.arr [.num (.fin 1 0)]), .arrEnd],
        some ⟨[], 0, false, false⟩) ∧
    feedChunk initStream (strBytes "[1]") =
      ([.arrStart, .value (.arr [.num (.fin 1 0)]), .arrEnd],
        some ⟨[], 0, false, false⟩) :=
  ⟨fun s c h => start_event_needs_empty s c h, rfl, rfl⟩

/-- C10 (witness): the start-event condition applied to the event
`ARRAY_START` actually emitted for `[` from the initial state. -/
theorem stream_start_event_first_byte_witness :
    initStream.buffer = [] ∧ initStream.depth = 0 ∧
      initStream.inString = false ∧ ((91 : Nat) = 123 ∨ (91 : Nat) = 91) :=
  stream_start_event_first_byte.1 initStream 91 (Or.inr (List.Mem.head _))
/-- Feeding a concatenation that aborts within the first part aborts with
the same events. -/
theorem feedBytes_append_none (a b : List Nat) (s : SState)
    (h : (feedBytes s a).2 = none) : feedBytes s (a ++ b) = feedBytes s a := by
  induction a generalizing s with
  | nil => simp [feedBytes] at h
  | cons c t ih =>
    simp only [List.cons_append, feedBytes, List.append_eq] at *
    cases hp : processByte s c with
    | mk evs os =>
      cases os with
      | none => simp [hp]
      | some s' =>
        rw [hp] at h
        simp only [] at h ⊢
        rw [ih s' (by
          rcases hfb : feedBytes s' t with ⟨evs₂, os₂⟩
          rw [hfb] at h
          simpa using h)]

/-- Feeding a concatenation whose first part completes continues from the
reached state, with the event streams concatenated. -/
theorem feedBytes_append_some (a b : List Nat) (s s₁ : SState)
    (h : (feedBytes s a).2 = some s₁) :
    feedBytes s (a ++ b) =
      ((feedBytes s a).1 ++ (feedBytes s₁ b).1, (feedBytes s₁ b).2) := by
  induction a generalizing s with
  | nil =>
    simp only [feedBytes] at h
    cases h
    simp [feedBytes]
  | cons c t ih =>
    simp only [List.cons_append, feedBytes, List.append_eq] at *
    cases hp : processByte s c with
    | mk evs os =>
      cases os with
      | none => rw [hp] at h; simp at h
      | some s' =>
        rw [hp] at h
        simp only [] at h ⊢
        rcases hfb : feedBytes s' t with ⟨evs₂, os₂⟩
        rw [hfb] at h
        simp only [] at h
        cases h
        rw [ih s' (by rw [hfb])]
        simp [hfb, List.append_assoc]

theorem isEofErr_eq (r : Except JsonErr JsonValue) (h : isEofErr r = true) :
    r = .error .unexpectedEof := by
  rcases r with err | v
  · revert h
    cases err <;> simp [isEofErr]
  · simp [isEofErr] at h

/-- When the no-op condition holds, the end-of-chunk flush leaves the state
unchanged and emits nothing. -/
theorem flush_noop (s : SState) (h : flushNoopB s = true) :
    flushState s = ([], some s) := by
  rw [flushState]
  by_cases hd : s.depth = 0
  · by_cases hbe : s.buffer.isEmpty
    · rw [if_neg (by simp [hbe])]
    · have hp : jsonParse s.buffer = .error .unexpectedEof := by
        apply isEofErr_eq
        rw [flushNoopB, hd] at h
        simpa [hbe] using h
      rw [if_pos ⟨hd, by simp [hbe]⟩, tryParseComplete, if_neg (by simp [hbe]),
        hp]
  · rw [if_neg (by simp [hd])]

/-- The first internal boundary of a multi-chunk feed satisfies the no-op
condition. -/
theorem boundariesOk_head (s : SState) (c : List Nat) (rest : List (List Nat))
    (h : boundariesOk s (c :: rest) = true) (hne : rest ≠ [])
    (s₁ : SState) (h₁ : (feedBytes s c).2 = some s₁) : flushNoopB s₁ = true := by
  have h0 : 0 ∈ List.range ((c :: rest).length - 1) := by
    simp only [List.mem_range, List.length_cons]
    cases rest with
    | nil => cases hne rfl
    | cons x xs => simp
  have := (List.all_eq_true.mp h) 0 h0
  simp only [List.take_succ_cons, List.take_zero, List.flatten_cons,
    List.flatten_nil, List.append_nil, h₁] at this
  exact this

/-- Dropping the first chunk preserves the boundary condition, starting
from the state its bytes reach. -/
theorem boundariesOk_tail (s : SState) (c : List Nat) (rest : List (List Nat))
    (h : boundariesOk s (c :: rest) = true)
    (s₁ : SState) (h₁ : (feedBytes s c).2 = some s₁) :
    boundariesOk s₁ rest = true := by
  simp only [boundariesOk, List.all_eq_true] at h ⊢
  intro i hi
  have hmem : i + 1 ∈ List.range ((c :: rest).length - 1) := by
    simp only [List.mem_range] at hi ⊢
    simp only [List.length_cons]
    omega
  have := h (i + 1) hmem
  rw [List.take_succ_cons, List.flatten_cons] at this
  rw [feedBytes_append_some c ((rest.take (i + 1)).flatten) s s₁ h₁] at this
  exact this

/-- Chunk-boundary invariance of the stream driver: when every internal
boundary hits a state where the end-of-chunk flush is a no-op, feeding the
chunks one by one produces exactly the feed of their concatenation as a
single chunk. -/
theorem feedChunks_eq_single (chunks : List (List Nat)) (s : SState)
    (hne : chunks ≠ []) (hlen : chunks.flatten.length ≤ 104857600)
    (hb : boundariesOk s chunks = true) :
    feedChunks s chunks = feedChunk s chunks.flatten := by
  induction chunks generalizing s with
  | nil => cases hne rfl
  | cons c rest ih =>
    by_cases hr : rest = []
    · subst hr
      simp only [feedChunks, List.flatten_cons, List.flatten_nil, List.append_nil]
      rcases hfc : feedChunk s c with ⟨evs, os⟩
      cases os <;> simp [feedChunks]
    · have hc : ¬ (104857600 < c.length) := by
        simp only [List.flatten_cons, List.length_append] at hlen
        omega
      have hcf : ¬ (104857600 < (c ++ rest.flatten).length) := by
        simp only [List.length_append]
        simp only [List.flatten_cons, List.length_append] at hlen
        omega
      have hF : ¬ (104857600 < rest.flatten.length) := by
        simp only [List.flatten_cons, List.length_append] at hlen
        omega
      simp only [feedChunks, List.flatten_cons]
      rcases hfb : feedBytes s c with ⟨evs, os⟩
      cases os with
      | none =>
        have hfc : feedChunk s c = (evs, none) := by
          simp [feedChunk, hc, hfb]
        have hRHS : feedChunk s (c ++ rest.flatten) = (evs, none) := by
          rw [feedChunk, if_neg hcf,
            feedBytes_append_none c rest.flatten s (by rw [hfb]), hfb]
        rw [hfc, hRHS]
      | some s₁ =>
        have hnoop : flushNoopB s₁ = true :=
          boundariesOk_head s c rest hb hr s₁ (by rw [hfb])
        have hfc : feedChunk s c = (evs, some s₁) := by
          simp [feedChunk, hc, hfb, flush_noop s₁ hnoop]
        have hIH : feedChunks s₁ rest = feedChunk s₁ rest.flatten :=
          ih s₁ hr (by omega) (boundariesOk_tail s c rest hb s₁ (by rw [hfb]))
        have hRHS : feedChunk s (c ++ rest.flatten) =
            (evs ++ (feedChunk s₁ rest.flatten).1, (feedChunk s₁ rest.flatten).2) := by
          rw [feedChunk, if_neg hcf,
            feedBytes_append_some c rest.flatten s s₁ (by rw [hfb]), hfb]
          simp only []
          rw [feedChunk, if_neg hF]
          rcases hfb₂ : feedBytes s₁ rest.flatten with ⟨evs₂, os₂⟩
          cases os₂ with
          | none => simp
          | some s₂ =>
            rcases hfl : flushState s₂ with ⟨evs₃, os₃⟩
            simp [List.append_assoc]
        rw [hfc]
        simp only []
        rw [hIH, hRHS]
/-- C2 (counterexample): the scalar document `12` fed as the chunks `1`,
`2` is not parsed as one value.  The end-of-chunk flush finds depth 0 and a
parseable buffer after each chunk, so the driver emits `VALUE 1` and then
`VALUE 2` — two VALUE events, while the one-shot parse of the same bytes
yields the single value 12. -/
theorem stream_split_scalar_cex :
    valuesOf (feedChunks initStream [[49], [50]]).1 =
      [.num (.fin 1 0), .num (.fin 2 0)] ∧
    jsonParse [49, 50] = .ok (.num (.fin 12 0)) ∧
    (valuesOf (feedChunks initStream [[49], [50]]).1).length ≠ 1 :=
  ⟨rfl, rfl, by decide⟩

/-- C2 (amended): chunking does not affect the event stream — in
particular the values delivered through VALUE events — provided every
internal chunk boundary falls where the driver's buffer is empty, or holds
an incomplete value (`json_parse` reports the recoverable
`UNEXPECTED_EOF`), or the depth counter is nonzero (first conjunct, over
every byte sequence and such chunking, against the single-chunk feed of
the concatenation); a boundary that splits a top-level scalar into a
parseable prefix violates this and is instead flushed as its own VALUE at
the chunk end.  The specification's streaming scenario holds: feeding
`[1,2,3,4,5]` split as `[1,` / `2,3` / `,4,5]` emits `ARRAY_START`, one
`VALUE` carrying the five-element array — equal to the one-shot parse —
and `ARRAY_END`. -/
theorem stream_chunk_equiv :
    (∀ (chunks : List (List Nat)) (s : SState), chunks ≠ [] →
      chunks.flatten.length ≤ 104857600 → boundariesOk s chunks = true →
      feedChunks s chunks = feedChunk s chunks.flatten) ∧
    feedChunks initStream [strBytes "[1,", strBytes "2,3", strBytes ",4,5]"] =
      ([.arrStart, .value (.arr [.num (.fin 1 0), .num (.fin 2 0),
          .num (.fin 3 0), .num (.fin 4 0), .num (.fin 5 0)]), .arrEnd],
        some ⟨[], 0, false, false⟩) ∧
    jsonParse (strBytes "[1,2,3,4,5]") =
      .ok (.arr [.num (.fin 1 0), .num (.fin 2 0), .num (.fin 3 0),
        .num (.fin 4 0), .num (.fin 5 0)]) :=
  ⟨fun chunks s => feedChunks_eq_single chunks s, rfl, rfl⟩

/-- C2 (witness): the chunk-invariance fact applied to the concrete
chunking `[1,` / `2]`, whose single internal boundary lies at depth 1. -/
theorem stream_chunk_equiv_witness :
    feedChunks initStream [strBytes "[1,", strBytes "2]"] =
      feedChunk initStream ([strBytes "[1,", strBytes "2]"] :
        List (List Nat)).flatten :=
  stream_chunk_equiv.1 [strBytes "[1,", strBytes "2]"] initStream
    (List.cons_ne_nil _ _) (by decide) (by decide)
/-- Token read for `[` ahead of arbitrary input. -/
theorem nextToken_lbracket (x : List Nat) : nextToken (91 :: x) = (.lbracket, x) := rfl

/-- Token read for `{` ahead of arbitrary input. -/
theorem nextToken_lbrace (x : List Nat) : nextToken (123 :: x) = (.lbrace, x) := rfl

/-- Token read for the object key `"k"` ahead of arbitrary input. -/
theorem nextToken_key (x : List Nat) :
    nextToken (34 :: 107 :: 34 :: 58 :: x) = (.str [107], 58 :: x) := rfl

/-- Token read for `:` ahead of arbitrary input. -/
theorem nextToken_colon (x : List Nat) : nextToken (58 :: x) = (.colon, x) := rfl

/-- First byte of an opener, split off for the token-by-token walk. -/
theorem cond_open_true (x : List Nat) :
    (cond true ([91] : List Nat) [123]) ++ x = 91 :: x := rfl

/-- First byte of an object opener. -/
theorem cond_open_false (x : List Nat) :
    (cond false ([91] : List Nat) [123]) ++ x = 123 :: x := rfl

/-- One-step unfolding of `parse_value` at `[`. -/
theorem pstep_value_lbracket (g d : Nat) (inp : List Nat) :
    pstep (g + 1) (.value d .lbracket) inp =
      if maxDepth < d + 1 then .error .stackOverflow
      else
        match (nextToken inp).1 with
        | Token.rbracket => .ok (.arr [], (nextToken inp).2)
        | t₁ => pstep g (.arrLoop (d + 1) [] t₁) (nextToken inp).2 := rfl

/-- One-step unfolding of `parse_value` at `{`. -/
theorem pstep_value_lbrace (g d : Nat) (inp : List Nat) :
    pstep (g + 1) (.value d .lbrace) inp =
      if maxDepth < d + 1 then .error .stackOverflow
      else
        match (nextToken inp).1 with
        | Token.rbrace => .ok (.obj [], (nextToken inp).2)
        | t₁ => pstep g (.objLoop (d + 1) [] t₁) (nextToken inp).2 := rfl

/-- One-step unfolding of the `parse_array` element loop. -/
theorem pstep_arrLoop_eq (g d : Nat) (acc : List JsonValue) (tok : Token)
    (inp : List Nat) :
    pstep (g + 1) (.arrLoop d acc tok) inp =
      match pstep g (.value d tok) inp with
      | .error e => .error e
      | .ok (v, inp₁) =>
        match (nextToken inp₁).1 with
        | Token.comma =>
          pstep g (.arrLoop d (acc ++ [v]) (nextToken (nextToken inp₁).2).1)
            (nextToken (nextToken inp₁).2).2
        | Token.rbracket => .ok (.arr (acc ++ [v]), (nextToken inp₁).2)
        | _ => .error .unexpectedTok := rfl

/-- One-step unfolding of the `parse_object` pair loop at a string key. -/
theorem pstep_objLoop_str (g d : Nat) (acc : List (List Nat × JsonValue))
    (key : List Nat) (inp : List Nat) :
    pstep (g + 1) (.objLoop d acc (.str key)) inp =
      match (nextToken inp).1 with
      | Token.colon =>
        (match pstep g (.value d (nextToken (nextToken inp).2).1)
            (nextToken (nextToken inp).2).2 with
         | .error e => .error e
         | .ok (v, inp₁) =>
           match (nextToken inp₁).1 with
           | Token.comma =>
             pstep g (.objLoop d (objectSet acc key v)
               (nextToken (nextToken inp₁).2).1) (nextToken (nextToken inp₁).2).2
           | Token.rbrace => .ok (.obj (objectSet acc key v), (nextToken inp₁).2)
           | _ => .error .unexpectedTok)
      | _ => .error .unexpectedTok := rfl

/-- Parsing from a value position that still has `1001 - d` unconsumed
openers in front of it ends in `STACK_OVERFLOW`: each opener raises the
tokenizer depth by one, and the depth check fires before any byte beyond
the 1001st opener is read. -/
theorem pstep_opens (opens : List Bool) :
    ∀ (b : Bool) (d fuel : Nat) (rest : List Nat),
      d + (b :: opens).length = 1001 →
      2 * (b :: opens).length ≤ fuel + 1 →
      pstep (fuel + 1)
        (.value d (cond b Token.lbracket Token.lbrace))
        (cond b ([] : List Nat) [34, 107, 34, 58] ++ opensBytes opens ++ rest) =
      .error .stackOverflow := by
  induction opens with
  | nil =>
    intro b d fuel rest hd _
    have hd1000 : d = 1000 := by simpa using hd
    cases b <;> simp [pstep, maxDepth, hd1000]
  | cons b' bs ih =>
    intro b d fuel rest hd hfuel
    have hdlt : ¬ (maxDepth < d + 1) := by
      simp only [maxDepth]
      simp only [List.length_cons] at hd
      omega
    have hfuel3 : 3 ≤ fuel := by
      simp only [List.length_cons] at hfuel
      omega
    obtain ⟨f'', rfl⟩ : ∃ f'', fuel = f'' + 2 := ⟨fuel - 2, by omega⟩
    have harg1 : d + 1 + (b' :: bs).length = 1001 := by
      simp only [List.length_cons] at hd ⊢
      omega
    have harg2 : 2 * (b' :: bs).length ≤ f'' + 1 := by
      simp only [List.length_cons] at hfuel ⊢
      omega
    have hsplit : opensBytes (b' :: bs) ++ rest =
        (cond b' ([91] : List Nat) [123]) ++
          (cond b' ([] : List Nat) [34, 107, 34, 58] ++ opensBytes bs ++ rest) := by
      cases b' <;> simp [opensBytes, openBytes, List.append_assoc]
    cases b with
    | true =>
      show pstep (f'' + 2 + 1) (.value d Token.lbracket)
        ([] ++ opensBytes (b' :: bs) ++ rest) = .error .stackOverflow
      rw [List.nil_append, hsplit]
      cases b' with
      | true =>
        rw [cond_open_true, pstep_value_lbracket, if_neg hdlt]
        simp only [nextToken_lbracket]
        rw [pstep_arrLoop_eq]
        have hIH' := ih true (d + 1) f'' rest harg1 harg2
        simp only [Bool.cond_true, Bool.cond_false, List.nil_append] at hIH' ⊢
        simp only [hIH']
      | false =>
        rw [cond_open_false, pstep_value_lbracket, if_neg hdlt]
        simp only [nextToken_lbrace]
        rw [pstep_arrLoop_eq]
        have hIH' := ih false (d + 1) f'' rest harg1 harg2
        simp only [Bool.cond_true, Bool.cond_false, List.nil_append] at hIH' ⊢
        simp only [hIH']
    | false =>
      show pstep (f'' + 2 + 1) (.value d Token.lbrace)
        ([34, 107, 34, 58] ++ opensBytes (b' :: bs) ++ rest) = .error .stackOverflow
      rw [show ([34, 107, 34, 58] : List Nat) ++ opensBytes (b' :: bs) ++ rest =
        34 :: 107 :: 34 :: 58 :: (opensBytes (b' :: bs) ++ rest) by
          simp [List.append_assoc]]
      rw [hsplit]
      cases b' with
      | true =>
        rw [cond_open_true, pstep_value_lbrace, if_neg hdlt]
        simp only [nextToken_key]
        rw [pstep_objLoop_str]
        simp only [nextToken_colon, nextToken_lbracket]
        have hIH' := ih true (d + 1) f'' rest harg1 harg2
        simp only [Bool.cond_true, Bool.cond_false, List.nil_append] at hIH' ⊢
        simp only [hIH']
      | false =>
        rw [cond_open_false, pstep_value_lbrace, if_neg hdlt]
        simp only [nextToken_key]
        rw [pstep_objLoop_str]
        simp only [nextToken_colon, nextToken_lbrace]
        have hIH' := ih false (d + 1) f'' rest harg1 harg2
        simp only [Bool.cond_true, Bool.cond_false, List.nil_append] at hIH' ⊢
        simp only [hIH']
/-- `cstr` distributes over an append whose first part is NUL-free. -/
theorem cstr_append_no_nul (a b : List Nat) (h : ∀ x ∈ a, x ≠ 0) :
    cstr (a ++ b) = a ++ cstr b := by
  induction a with
  | nil => simp
  | cons c t ih =>
    have hc : c ≠ 0 := h c (by simp)
    simp only [List.cons_append, cstr, List.takeWhile_cons]
    rw [if_pos (by simpa using hc)]
    simpa [cstr] using ih (fun x hx => h x (by simp [hx]))

/-- Opener chains contain no NUL byte. -/
theorem opensBytes_no_nul (l : List Bool) : ∀ x ∈ opensBytes l, x ≠ 0 := by
  induction l with
  | nil => simp [opensBytes]
  | cons b t ih =>
    intro x hx
    simp only [opensBytes, List.mem_append] at hx
    rcases hx with hx | hx
    · cases b <;> simp [openBytes] at hx <;> omega
    · exact ih x hx

/-- An opener chain is at least as long as its nesting depth. -/
theorem opensBytes_len (l : List Bool) : l.length ≤ (opensBytes l).length := by
  induction l with
  | nil => simp [opensBytes]
  | cons b t ih =>
    simp only [opensBytes, List.length_append, List.length_cons]
    cases b <;> simp [openBytes] <;> omega


/-- Any document opening with 1001 nested containers (any mix of arrays
and objects) fails with `STACK_OVERFLOW` whatever follows. -/
theorem jsonParse_opens_overflow (opens : List Bool) (rest : List Nat)
    (h : opens.length = 1001) :
    jsonParse (opensBytes opens ++ rest) = .error .stackOverflow := by
  cases opens with
  | nil => simp at h
  | cons b bs =>
    have hnul : cstr (opensBytes (b :: bs) ++ rest) =
        opensBytes (b :: bs) ++ cstr rest :=
      cstr_append_no_nul _ _ (opensBytes_no_nul (b :: bs))
    have hbl := opensBytes_len bs
    simp only [jsonParse, hnul]
    cases b with
    | true =>
      rw [show opensBytes (true :: bs) ++ cstr rest =
        91 :: (opensBytes bs ++ cstr rest) by simp [opensBytes, openBytes]]
      generalize hF : 2 * (91 :: (opensBytes bs ++ cstr rest)).length + 8 = F
      obtain ⟨f', rfl⟩ : ∃ f', F = f' + 1 :=
        ⟨F - 1, by omega⟩
      have hf' : 2 * (true :: bs).length ≤ f' + 1 := by
        simp only [List.length_cons, List.length_append] at hF ⊢
        omega
      simp only [nextToken_lbracket]
      have hP := pstep_opens bs true 0 f' (cstr rest) (by simpa using h) hf'
      simp only [Bool.cond_true, Bool.cond_false, List.nil_append] at hP
      simp only [hP]
    | false =>
      rw [show opensBytes (false :: bs) ++ cstr rest =
        123 :: (34 :: 107 :: 34 :: 58 :: (opensBytes bs ++ cstr rest)) by
          simp [opensBytes, openBytes]]
      generalize hF :
        2 * (123 :: (34 :: 107 :: 34 :: 58 :: (opensBytes bs ++ cstr rest))).length + 8 = F
      obtain ⟨f', rfl⟩ : ∃ f', F = f' + 1 :=
        ⟨F - 1, by omega⟩
      have hf' : 2 * (false :: bs).length ≤ f' + 1 := by
        simp only [List.length_cons, List.length_append] at hF ⊢
        omega
      simp only [nextToken_lbrace]
      have hP := pstep_opens bs false 0 f' (cstr rest) (by simpa using h) hf'
      simp only [Bool.cond_true, Bool.cond_false, List.cons_append,
        List.nil_append] at hP
      simp only [hP]

/-- Depth of a concatenation of array elements. -/
theorem depthArr_append (a b : List JsonValue) :
    depthArr (a ++ b) = max (depthArr a) (depthArr b) := by
  induction a with
  | nil => simp [depthArr]
  | cons v t ih =>
    simp only [List.cons_append, List.append_eq, depthArr, ih]
    exact (Nat.max_assoc _ _ _).symm

/-- `objectSet` never deepens an object beyond its old depth and the new
value's depth. -/
theorem depthPairs_objectSet (acc : List (List Nat × JsonValue))
    (k : List Nat) (v : JsonValue) :
    depthPairs (objectSet acc k v) ≤ max (depthPairs acc) (depthV v) := by
  induction acc with
  | nil => simp [objectSet, depthPairs]
  | cons p t ih =>
    obtain ⟨k₀, v₀⟩ := p
    by_cases hk : cstr k₀ = cstr k
    · simp only [objectSet, if_pos hk, depthPairs]
      omega
    · simp only [objectSet, if_neg hk, depthPairs]
      omega

/-- Depth invariant of the recursive-descent parser: a value produced at
tokenizer depth `d` is at most `maxDepth - d` deep, and the element loops
at depth `d` produce containers at most `maxDepth - d + 1` deep. -/
theorem pstep_depth : ∀ fuel : Nat,
    (∀ d tok inp v rest, pstep fuel (.value d tok) inp = .ok (v, rest) →
        depthV v ≤ maxDepth - d) ∧
    (∀ d acc tok inp v rest, depthArr acc ≤ maxDepth - d →
        pstep fuel (.arrLoop d acc tok) inp = .ok (v, rest) →
        depthV v ≤ (maxDepth - d) + 1) ∧
    (∀ d acc tok inp v rest, depthPairs acc ≤ maxDepth - d →
        pstep fuel (.objLoop d acc tok) inp = .ok (v, rest) →
        depthV v ≤ (maxDepth - d) + 1) := by
  intro fuel
  induction fuel with
  | zero =>
    refine ⟨?_, ?_, ?_⟩
    · intro d tok inp v rest h
      simp [pstep] at h
    · intro d acc tok inp v rest _ h
      simp [pstep] at h
    · intro d acc tok inp v rest _ h
      simp [pstep] at h
  | succ fuel ih =>
    obtain ⟨ihV, ihA, ihO⟩ := ih
    refine ⟨?_, ?_, ?_⟩
    · intro d tok inp v rest h
      cases tok with
      | eof => simp [pstep] at h
      | tnull =>
        simp [pstep] at h
        obtain ⟨rfl, rfl⟩ := h
        simp [depthV]
      | ttrue =>
        simp [pstep] at h
        obtain ⟨rfl, rfl⟩ := h
        simp [depthV]
      | tfalse =>
        simp [pstep] at h
        obtain ⟨rfl, rfl⟩ := h
        simp [depthV]
      | num m e =>
        simp [pstep] at h
        obtain ⟨rfl, rfl⟩ := h
        simp [depthV]
      | str s =>
        simp [pstep] at h
        obtain ⟨rfl, rfl⟩ := h
        simp [depthV]
      | lbracket =>
        simp only [pstep] at h
        by_cases hd : maxDepth < d + 1
        · rw [if_pos hd] at h
          simp at h
        · rw [if_neg hd] at h
          split at h
          · simp only [Except.ok.injEq, Prod.mk.injEq] at h
            obtain ⟨rfl, rfl⟩ := h
            simp only [depthV, depthArr]
            omega
          · have := ihA (d + 1) [] _ _ v rest (by simp [depthArr]) h
            omega
      | lbrace =>
        simp only [pstep] at h
        by_cases hd : maxDepth < d + 1
        · rw [if_pos hd] at h
          simp at h
        · rw [if_neg hd] at h
          split at h
          · simp only [Except.ok.injEq, Prod.mk.injEq] at h
            obtain ⟨rfl, rfl⟩ := h
            simp only [depthV, depthPairs]
            omega
          · have := ihO (d + 1) [] _ _ v rest (by simp [depthPairs]) h
            omega
      | rbrace => simp [pstep] at h
      | rbracket => simp [pstep] at h
      | colon => simp [pstep] at h
      | comma => simp [pstep] at h
      | errTok code => simp [pstep] at h
    · intro d acc tok inp v rest hacc h
      simp only [pstep] at h
      rcases hv : pstep fuel (.value d tok) inp with e | p
      · rw [hv] at h
        simp at h
      · obtain ⟨v₁, inp₁⟩ := p
        simp only [hv] at h
        have hv₁ : depthV v₁ ≤ maxDepth - d := ihV d tok inp v₁ inp₁ hv
        have hacc' : depthArr (acc ++ [v₁]) ≤ maxDepth - d := by
          rw [depthArr_append]
          simp only [depthArr]
          omega
        split at h
        · exact ihA d (acc ++ [v₁]) _ _ v rest hacc' h
        · simp only [Except.ok.injEq, Prod.mk.injEq] at h
          obtain ⟨rfl, rfl⟩ := h
          simp only [depthV]
          omega
        · simp at h
    · intro d acc tok inp v rest hacc h
      cases tok with
      | str key =>
        simp only [pstep] at h
        split at h
        · rcases hv : pstep fuel
              (.value d (nextToken (nextToken inp).2).1)
              (nextToken (nextToken inp).2).2 with e | p
          · rw [hv] at h
            simp at h
          · obtain ⟨v₁, inp₁⟩ := p
            simp only [hv] at h
            have hv₁ : depthV v₁ ≤ maxDepth - d := ihV d _ _ v₁ inp₁ hv
            have hacc' : depthPairs (objectSet acc key v₁) ≤ maxDepth - d := by
              have := depthPairs_objectSet acc key v₁
              omega
            split at h
            · exact ihO d (objectSet acc key v₁) _ _ v rest hacc' h
            · simp only [Except.ok.injEq, Prod.mk.injEq] at h
              obtain ⟨rfl, rfl⟩ := h
              simp only [depthV]
              omega
            · simp at h
        · simp at h
      | eof => simp [pstep] at h
      | tnull => simp [pstep] at h
      | ttrue => simp [pstep] at h
      | tfalse => simp [pstep] at h
      | num m e => simp [pstep] at h
      | lbrace => simp [pstep] at h
      | rbrace => simp [pstep] at h
      | lbracket => simp [pstep] at h
      | rbracket => simp [pstep] at h
      | colon => simp [pstep] at h
      | comma => simp [pstep] at h
      | errTok code => simp [pstep] at h

/-- No value handed back by `json_parse` is nested deeper than
`MAX_NESTING_DEPTH`. -/
theorem jsonParse_depth_le (s : List Nat) (v : JsonValue)
    (h : jsonParse s = .ok v) : depthV v ≤ maxDepth := by
  simp only [jsonParse] at h
  rcases hp : pstep (2 * (cstr s).length + 8)
      (.value 0 (nextToken (cstr s)).1) (nextToken (cstr s)).2 with e | p
  · rw [hp] at h
    simp at h
  · obtain ⟨v₁, rest⟩ := p
    simp only [hp] at h
    have hb := (pstep_depth (2 * (cstr s).length + 8)).1 0 _ _ v₁ rest hp
    split at h
    · simp only [Except.ok.injEq] at h
      subst h
      simpa using hb
    · simp at h

/-- C4: a document opening more than `MAX_NESTING_DEPTH` (1000) nested
containers makes `json_parse` fail with `STACK_OVERFLOW` — concretely,
every chain of 1001 openers (any mix of `[` and `\x7b"k":`), whatever
follows it, is rejected with that code — and no partial value escapes:
every value `json_parse` does return has nesting depth at most 1000. -/
theorem nesting_depth_bound :
    (∀ (opens : List Bool) (rest : List Nat), opens.length = 1001 →
        jsonParse (opensBytes opens ++ rest) = .error .stackOverflow) ∧
    (∀ (s : List Nat) (v : JsonValue), jsonParse s = .ok v →
        depthV v ≤ maxDepth) :=
  ⟨fun opens rest h => jsonParse_opens_overflow opens rest h,
   fun s v h => jsonParse_depth_le s v h⟩

/-- Witness: 1001 nested `[` overflow, and the value parsed from "null"
observes the depth bound. -/
theorem nesting_depth_bound_witness :
    jsonParse (opensBytes (List.replicate 1001 true) ++ []) =
        .error .stackOverflow ∧
    depthV JsonValue.null ≤ maxDepth :=
  ⟨nesting_depth_bound.1 (List.replicate 1001 true) [] (by simp),
   nesting_depth_bound.2 [110, 117, 108, 108] JsonValue.null (by rfl)⟩

/-- `pow10` computes powers of ten. -/
theorem pow10_eq (n : Nat) : pow10 n = (10 : Int) ^ n := by
  have h : n / 2 + (n - n / 2) = n := by omega
  rw [pow10]
  rw [show Nat.pow 10 (n / 2) * Nat.pow 10 (n - n / 2) = 10 ^ n by
    simp only [Nat.pow_eq]
    rw [← pow_add, h]]
  exact_mod_cast rfl

/-- Shifting the mantissa by a power of ten shifts the exponent. -/
theorem decVal_shift (m : Int) (e : Int) (k : Nat) :
    decVal (m * pow10 k) e = decVal m (e + k) := by
  rw [decVal, decVal, pow10_eq]
  push_cast
  rw [zpow_add₀ (by norm_num : (10 : ℚ) ≠ 0), zpow_natCast]
  ring

/-- `decVal` is injective in the mantissa at a fixed exponent. -/
theorem decVal_inj (m₁ m₂ e : Int) : decVal m₁ e = decVal m₂ e ↔ m₁ = m₂ := by
  rw [decVal, decVal]
  constructor
  · intro h
    have h₂ := mul_right_cancel₀
      (zpow_ne_zero e (by norm_num : (10 : ℚ) ≠ 0)) h
    exact_mod_cast h₂
  · intro h
    rw [h]

/-- `decValEq` decides exact equality of the represented values. -/
theorem decValEq_iff (m₁ e₁ m₂ e₂ : Int) :
    decValEq m₁ e₁ m₂ e₂ = true ↔ decVal m₁ e₁ = decVal m₂ e₂ := by
  rw [decValEq]
  by_cases he : e₂ ≤ e₁
  · rw [if_pos he, beq_iff_eq]
    have h₁ : decVal m₁ e₁ = decVal (m₁ * pow10 (e₁ - e₂).toNat) e₂ := by
      rw [decVal_shift]
      congr 1
      omega
    rw [h₁, decVal_inj]
  · rw [if_neg he, beq_iff_eq]
    have h₁ : decVal m₂ e₂ = decVal (m₂ * pow10 (e₂ - e₁).toNat) e₁ := by
      rw [decVal_shift]
      congr 1
      omega
    rw [h₁, decVal_inj]

/-- IEEE `==` of the number payloads is symmetric. -/
theorem numEq_symm (n₁ n₂ : NumV) (h : numEq n₁ n₂ = true) :
    numEq n₂ n₁ = true := by
  cases n₁ with
  | fin m₁ e₁ =>
    cases n₂ with
    | fin m₂ e₂ =>
      rw [numEq, decValEq_iff] at h ⊢
      exact h.symm
    | inf b => simp [numEq] at h
    | nan => simp [numEq] at h
  | inf b₁ =>
    cases n₂ with
    | fin m e => simp [numEq] at h
    | inf b₂ =>
      rw [numEq, beq_iff_eq] at h ⊢
      exact h.symm
    | nan => simp [numEq] at h
  | nan => cases n₂ <;> simp [numEq] at h

/-- IEEE `==` of the number payloads is transitive. -/
theorem numEq_trans (n₁ n₂ n₃ : NumV) (h₁ : numEq n₁ n₂ = true)
    (h₂ : numEq n₂ n₃ = true) : numEq n₁ n₃ = true := by
  cases n₁ with
  | fin m₁ e₁ =>
    cases n₂ with
    | fin m₂ e₂ =>
      cases n₃ with
      | fin m₃ e₃ =>
        rw [numEq, decValEq_iff] at h₁ h₂ ⊢
        exact h₁.trans h₂
      | inf b => simp [numEq] at h₂
      | nan => simp [numEq] at h₂
    | inf b => simp [numEq] at h₁
    | nan => simp [numEq] at h₁
  | inf b₁ =>
    cases n₂ with
    | fin m e => simp [numEq] at h₁
    | inf b₂ =>
      cases n₃ with
      | fin m e => simp [numEq] at h₂
      | inf b₃ =>
        rw [numEq, beq_iff_eq] at h₁ h₂ ⊢
        exact h₁.trans h₂
      | nan => simp [numEq] at h₂
    | nan => simp [numEq] at h₁
  | nan => cases n₂ <;> simp [numEq] at h₁

/-- An array element counts toward the array's node count. -/
theorem sizeArr_mem (l : List JsonValue) (v : JsonValue) (h : v ∈ l) :
    sizeV v ≤ sizeArr l := by
  induction l with
  | nil => simp at h
  | cons w t ih =>
    rcases List.mem_cons.mp h with rfl | ht
    · simp [sizeArr]
    · have := ih ht
      simp only [sizeArr]
      omega

/-- An object value counts toward the object's node count. -/
theorem sizePairs_mem (l : List (List Nat × JsonValue)) (k : List Nat)
    (v : JsonValue) (h : (k, v) ∈ l) : sizeV v ≤ sizePairs l := by
  induction l with
  | nil => simp at h
  | cons p t ih =>
    obtain ⟨k₀, v₀⟩ := p
    rcases List.mem_cons.mp h with he | ht
    · obtain ⟨rfl, rfl⟩ := Prod.mk.injEq .. ▸ he
      simp [sizePairs]
    · have := ih ht
      simp only [sizePairs]
      omega

/-- Elements of a well-formed array are well-formed. -/
theorem wfArr_mem (l : List JsonValue) (v : JsonValue)
    (hw : wfArr l = true) (h : v ∈ l) : wfV v = true := by
  induction l with
  | nil => simp at h
  | cons w t ih =>
    simp only [wfArr, Bool.and_eq_true] at hw
    rcases List.mem_cons.mp h with rfl | ht
    · exact hw.1
    · exact ih hw.2 ht

/-- Values of a well-formed pair list are well-formed. -/
theorem wfPairs_mem (l : List (List Nat × JsonValue)) (k : List Nat)
    (v : JsonValue) (hw : wfPairs l = true) (h : (k, v) ∈ l) :
    wfV v = true := by
  induction l with
  | nil => simp at h
  | cons p t ih =>
    obtain ⟨k₀, v₀⟩ := p
    simp only [wfPairs, Bool.and_eq_true] at hw
    rcases List.mem_cons.mp h with he | ht
    · obtain ⟨rfl, rfl⟩ := Prod.mk.injEq .. ▸ he
      exact hw.1
    · exact ih hw.2 ht

/-- `uniqKeys` decides `Nodup` of the key list. -/
theorem uniqKeys_nodup (ks : List (List Nat)) :
    uniqKeys ks = true ↔ ks.Nodup := by
  induction ks with
  | nil => simp [uniqKeys]
  | cons k t ih =>
    simp [uniqKeys, ih, List.nodup_cons]

/-- `lookupPairs` only looks at keys through `cstr`. -/
theorem lookupPairs_congr (l : List (List Nat × JsonValue)) (k k' : List Nat)
    (h : cstr k = cstr k') : lookupPairs l k = lookupPairs l k' := by
  induction l with
  | nil => rfl
  | cons p t ih =>
    obtain ⟨k₀, v₀⟩ := p
    simp only [lookupPairs, h, ih]

/-- A successful lookup exhibits a pair of the list with a matching key. -/
theorem lookupPairs_mem (l : List (List Nat × JsonValue)) (k : List Nat)
    (v : JsonValue) (h : lookupPairs l k = some v) :
    ∃ k₀, (k₀, v) ∈ l ∧ cstr k₀ = cstr k := by
  induction l with
  | nil => simp [lookupPairs] at h
  | cons p t ih =>
    obtain ⟨k₀, v₀⟩ := p
    simp only [lookupPairs] at h
    by_cases hk : cstr k₀ = cstr k
    · rw [if_pos hk] at h
      obtain rfl : v₀ = v := by
        injection h
      exact ⟨k₀, by simp, hk⟩
    · rw [if_neg hk] at h
      obtain ⟨k₁, hm, hc⟩ := ih h
      exact ⟨k₁, by simp [hm], hc⟩

/-- With unique keys, membership determines the lookup result. -/
theorem mem_lookupPairs (l : List (List Nat × JsonValue)) (k : List Nat)
    (v : JsonValue) (hu : uniqKeys (l.map (fun p => cstr p.1)) = true)
    (h : (k, v) ∈ l) : lookupPairs l k = some v := by
  induction l with
  | nil => simp at h
  | cons p t ih =>
    obtain ⟨k₀, v₀⟩ := p
    have hnd := (uniqKeys_nodup _).mp hu
    simp only [List.map_cons, List.nodup_cons] at hnd
    obtain ⟨hnc, hnt⟩ := hnd
    rcases List.mem_cons.mp h with he | ht
    · obtain ⟨rfl, rfl⟩ := Prod.mk.injEq .. ▸ he
      simp [lookupPairs]
    · have hk : cstr k₀ ≠ cstr k := by
        intro hc
        exact hnc (hc ▸ List.mem_map.mpr ⟨(k, v), ht, rfl⟩)
      simp only [lookupPairs, if_neg hk]
      exact ih ((uniqKeys_nodup _).mpr hnt) ht

/-- The pair loop of `json_equals` succeeds exactly when every key of the
first operand has an equal-valued hit in the second. -/
theorem eqPairs_iff (t l₂ : List (List Nat × JsonValue)) :
    eqPairs t l₂ = true ↔
      ∀ p ∈ t, ∃ v', lookupPairs l₂ p.1 = some v' ∧
        jsonEquals p.2 v' = true := by
  induction t with
  | nil => simp [eqPairs]
  | cons p t ih =>
    obtain ⟨k, v⟩ := p
    simp only [eqPairs, Bool.and_eq_true, ih]
    constructor
    · rintro ⟨h₁, h₂⟩ q hq
      rcases List.mem_cons.mp hq with he | ht
      · subst he
        rcases hl : lookupPairs l₂ k with _ | v'
        · rw [hl] at h₁
          simp at h₁
        · rw [hl] at h₁
          exact ⟨v', rfl, h₁⟩
      · exact h₂ q ht
    · intro h
      refine ⟨?_, fun q hq => h q (by simp [hq])⟩
      obtain ⟨v', hl, he⟩ := h (k, v) (by simp)
      rw [hl]
      exact he

/-- Diagonal of the array element loop. -/
theorem eqArr_diag (l : List JsonValue)
    (h : ∀ v ∈ l, jsonEquals v v = true) : eqArr l l = true := by
  induction l with
  | nil => rfl
  | cons v t ih =>
    simp only [eqArr, Bool.and_eq_true]
    exact ⟨h v (by simp), ih (fun x hx => h x (by simp [hx]))⟩

/-- Diagonal of the pair loop under unique keys. -/
theorem eqPairs_diag (l : List (List Nat × JsonValue))
    (hu : uniqKeys (l.map (fun p => cstr p.1)) = true)
    (h : ∀ p ∈ l, jsonEquals p.2 p.2 = true) : eqPairs l l = true := by
  rw [eqPairs_iff]
  intro p hp
  obtain ⟨k, v⟩ := p
  exact ⟨v, mem_lookupPairs l k v hu hp, h (k, v) hp⟩

/-- `json_equals` is reflexive on well-formed values (size-bounded form
for the induction). -/
theorem jsonEquals_refl_aux : ∀ (n : Nat) (v : JsonValue), sizeV v ≤ n →
    wfV v = true → jsonEquals v v = true := by
  intro n
  induction n using Nat.strong_induction_on with
  | _ n ih =>
    intro v hs hv
    cases v with
    | null => rfl
    | bool b => simp [jsonEquals]
    | num nv =>
      cases nv with
      | fin m e => rw [jsonEquals, numEq, decValEq_iff]
      | inf b => simp [wfV] at hv
      | nan => simp [wfV] at hv
    | str s => simp [jsonEquals]
    | arr l =>
      simp only [jsonEquals]
      simp only [wfV] at hv
      simp only [sizeV] at hs
      refine eqArr_diag l (fun x hx => ?_)
      have hsx := sizeArr_mem l x hx
      exact ih (n - 1) (by omega) x (by omega) (wfArr_mem l x hv hx)
    | obj l =>
      simp only [jsonEquals, Bool.and_eq_true, beq_iff_eq]
      simp only [wfV, Bool.and_eq_true] at hv
      simp only [sizeV] at hs
      refine ⟨by simp, eqPairs_diag l hv.1 (fun p hp => ?_)⟩
      obtain ⟨k, x⟩ := p
      have hsx := sizePairs_mem l k x hp
      exact ih (n - 1) (by omega) x (by omega) (wfPairs_mem l k x hv.2 hp)

/-- Flipping the array element loop, given element-wise symmetry on the
participating elements. -/
theorem eqArr_flip (l₁ : List JsonValue) :
    ∀ l₂, (∀ v ∈ l₁, ∀ w ∈ l₂, jsonEquals v w = true →
        jsonEquals w v = true) →
    eqArr l₁ l₂ = true → eqArr l₂ l₁ = true := by
  induction l₁ with
  | nil =>
    intro l₂ hsym he
    cases l₂ with
    | nil => rfl
    | cons w t₂ => simp [eqArr] at he
  | cons v t₁ ih =>
    intro l₂ hsym he
    cases l₂ with
    | nil => simp [eqArr] at he
    | cons w t₂ =>
      simp only [eqArr, Bool.and_eq_true] at he ⊢
      exact ⟨hsym v (by simp) w (by simp) he.1,
        ih t₂ (fun x hx y hy => hsym x (by simp [hx]) y (by simp [hy])) he.2⟩

/-- Flipping the pair loop: with unique keys on both sides and equal
counts, the forward lookups of `json_equals` form a key bijection, so the
reverse lookups succeed as well. -/
theorem eqPairs_flip (l₁ l₂ : List (List Nat × JsonValue))
    (hsym : ∀ p ∈ l₁, ∀ q ∈ l₂, jsonEquals p.2 q.2 = true →
        jsonEquals q.2 p.2 = true)
    (hu₁ : uniqKeys (l₁.map (fun p => cstr p.1)) = true)
    (hu₂ : uniqKeys (l₂.map (fun p => cstr p.1)) = true)
    (hlen : l₁.length = l₂.length)
    (he : eqPairs l₁ l₂ = true) : eqPairs l₂ l₁ = true := by
  rw [eqPairs_iff] at he ⊢
  have hsub : (l₁.map (fun p => cstr p.1)) ⊆
      (l₂.map (fun p => cstr p.1)) := by
    intro x hx
    obtain ⟨p, hp, rfl⟩ := List.mem_map.mp hx
    obtain ⟨v', hl', _⟩ := he p hp
    obtain ⟨k₀, hm, hc⟩ := lookupPairs_mem l₂ p.1 v' hl'
    exact List.mem_map.mpr ⟨(k₀, v'), hm, hc⟩
  have hperm : (l₁.map (fun p => cstr p.1)).Perm
      (l₂.map (fun p => cstr p.1)) :=
    List.Subperm.perm_of_length_le
      (List.subperm_of_subset ((uniqKeys_nodup _).mp hu₁) hsub)
      (by simp [hlen])
  rintro ⟨qk, qv⟩ hq
  have hqk : cstr qk ∈ l₁.map (fun p => cstr p.1) :=
    hperm.mem_iff.mpr (List.mem_map.mpr ⟨(qk, qv), hq, rfl⟩)
  obtain ⟨p, hp, hpc⟩ := List.mem_map.mp hqk
  obtain ⟨pk, pv⟩ := p
  obtain ⟨v', hl', hev⟩ := he (pk, pv) hp
  have hql : lookupPairs l₂ qk = some qv := mem_lookupPairs l₂ qk qv hu₂ hq
  have hv' : v' = qv := by
    have h₁ : lookupPairs l₂ pk = lookupPairs l₂ qk :=
      lookupPairs_congr l₂ pk qk hpc
    rw [hl', hql] at h₁
    injection h₁
  rw [hv'] at hev
  refine ⟨pv, ?_, hsym (pk, pv) hp (qk, qv) hq hev⟩
  have h₂ : lookupPairs l₁ qk = lookupPairs l₁ pk :=
    lookupPairs_congr l₁ qk pk hpc.symm
  rw [h₂]
  exact mem_lookupPairs l₁ pk pv hu₁ hp

/-- `json_equals` is symmetric on well-formed values (size-bounded form
for the induction). -/
theorem jsonEquals_symm_aux : ∀ (n : Nat) (v w : JsonValue), sizeV v ≤ n →
    wfV v = true → wfV w = true → jsonEquals v w = true →
    jsonEquals w v = true := by
  intro n
  induction n using Nat.strong_induction_on with
  | _ n ih =>
    intro v w hs hv hw he
    cases v with
    | null => cases w <;> simp [jsonEquals] at he ⊢
    | bool b =>
      cases w <;> simp [jsonEquals] at he ⊢
      exact he.symm
    | num nv =>
      cases w with
      | num nw =>
        rw [jsonEquals] at he ⊢
        exact numEq_symm nv nw he
      | null => simp [jsonEquals] at he
      | bool _ => simp [jsonEquals] at he
      | str _ => simp [jsonEquals] at he
      | arr _ => simp [jsonEquals] at he
      | obj _ => simp [jsonEquals] at he
    | str s =>
      cases w <;> simp [jsonEquals] at he ⊢
      exact he.symm
    | arr l₁ =>
      cases w with
      | arr l₂ =>
        simp only [jsonEquals] at he ⊢
        simp only [wfV] at hv hw
        simp only [sizeV] at hs
        refine eqArr_flip l₁ l₂ (fun x hx y hy hxy => ?_) he
        have hsx := sizeArr_mem l₁ x hx
        exact ih (n - 1) (by omega) x y (by omega)
          (wfArr_mem l₁ x hv hx) (wfArr_mem l₂ y hw hy) hxy
      | null => simp [jsonEquals] at he
      | bool _ => simp [jsonEquals] at he
      | num _ => simp [jsonEquals] at he
      | str _ => simp [jsonEquals] at he
      | obj _ => simp [jsonEquals] at he
    | obj l₁ =>
      cases w with
      | obj l₂ =>
        simp only [jsonEquals, Bool.and_eq_true, beq_iff_eq] at he ⊢
        simp only [wfV, Bool.and_eq_true] at hv hw
        simp only [sizeV] at hs
        refine ⟨he.1.symm, eqPairs_flip l₁ l₂ (fun p hp q hq hxy => ?_)
          hv.1 hw.1 he.1 he.2⟩
        obtain ⟨pk, pv⟩ := p
        obtain ⟨qk, qv⟩ := q
        have hsx := sizePairs_mem l₁ pk pv hp
        exact ih (n - 1) (by omega) pv qv (by omega)
          (wfPairs_mem l₁ pk pv hv.2 hp) (wfPairs_mem l₂ qk qv hw.2 hq) hxy
      | null => simp [jsonEquals] at he
      | bool _ => simp [jsonEquals] at he
      | num _ => simp [jsonEquals] at he
      | str _ => simp [jsonEquals] at he
      | arr _ => simp [jsonEquals] at he

/-- Chaining the array element loop, given element-wise transitivity. -/
theorem eqArr_chain (l₁ : List JsonValue) :
    ∀ l₂ l₃, (∀ v ∈ l₁, ∀ w x, jsonEquals v w = true →
        jsonEquals w x = true → jsonEquals v x = true) →
    eqArr l₁ l₂ = true → eqArr l₂ l₃ = true → eqArr l₁ l₃ = true := by
  induction l₁ with
  | nil =>
    intro l₂ l₃ htr h₁ h₂
    cases l₂ with
    | nil => cases l₃ with
      | nil => rfl
      | cons _ _ => simp [eqArr] at h₂
    | cons _ _ => simp [eqArr] at h₁
  | cons v t₁ ih =>
    intro l₂ l₃ htr h₁ h₂
    cases l₂ with
    | nil => simp [eqArr] at h₁
    | cons w t₂ =>
      cases l₃ with
      | nil => simp [eqArr] at h₂
      | cons x t₃ =>
        simp only [eqArr, Bool.and_eq_true] at h₁ h₂ ⊢
        exact ⟨htr v (by simp) w x h₁.1 h₂.1,
          ih t₂ t₃ (fun a ha b c => htr a (by simp [ha]) b c) h₁.2 h₂.2⟩

/-- Chaining the pair loop through the middle operand's pairs. -/
theorem eqPairs_chain (l₁ l₂ l₃ : List (List Nat × JsonValue))
    (htr : ∀ p ∈ l₁, ∀ w x, jsonEquals p.2 w = true →
        jsonEquals w x = true → jsonEquals p.2 x = true)
    (he₁ : eqPairs l₁ l₂ = true) (he₂ : eqPairs l₂ l₃ = true) :
    eqPairs l₁ l₃ = true := by
  rw [eqPairs_iff] at he₁ he₂ ⊢
  rintro ⟨k, v⟩ hp
  obtain ⟨v', hl', hev⟩ := he₁ (k, v) hp
  obtain ⟨k₀, hm, hc⟩ := lookupPairs_mem l₂ k v' hl'
  obtain ⟨v'', hl'', hev'⟩ := he₂ (k₀, v') hm
  refine ⟨v'', ?_, htr (k, v) hp v' v'' hev hev'⟩
  rw [lookupPairs_congr l₃ k k₀ hc.symm]
  exact hl''

/-- `json_equals` is transitive (size-bounded form for the induction; no
well-formedness is needed, as the forward object lookups always chain). -/
theorem jsonEquals_trans_aux : ∀ (n : Nat) (u v w : JsonValue),
    sizeV u ≤ n → jsonEquals u v = true → jsonEquals v w = true →
    jsonEquals u w = true := by
  intro n
  induction n using Nat.strong_induction_on with
  | _ n ih =>
    intro u v w hs h₁ h₂
    cases u with
    | null =>
      cases v with
      | null =>
        cases w with
        | null => rfl
        | bool _ => simp [jsonEquals] at h₂
        | num _ => simp [jsonEquals] at h₂
        | str _ => simp [jsonEquals] at h₂
        | arr _ => simp [jsonEquals] at h₂
        | obj _ => simp [jsonEquals] at h₂
      | bool _ => simp [jsonEquals] at h₁
      | num _ => simp [jsonEquals] at h₁
      | str _ => simp [jsonEquals] at h₁
      | arr _ => simp [jsonEquals] at h₁
      | obj _ => simp [jsonEquals] at h₁
    | bool a =>
      cases v with
      | bool b =>
        cases w with
        | bool c =>
          rw [jsonEquals, beq_iff_eq] at h₁ h₂ ⊢
          exact h₁.trans h₂
        | null => simp [jsonEquals] at h₂
        | num _ => simp [jsonEquals] at h₂
        | str _ => simp [jsonEquals] at h₂
        | arr _ => simp [jsonEquals] at h₂
        | obj _ => simp [jsonEquals] at h₂
      | null => simp [jsonEquals] at h₁
      | num _ => simp [jsonEquals] at h₁
      | str _ => simp [jsonEquals] at h₁
      | arr _ => simp [jsonEquals] at h₁
      | obj _ => simp [jsonEquals] at h₁
    | num na =>
      cases v with
      | num nb =>
        cases w with
        | num nc =>
          rw [jsonEquals] at h₁ h₂ ⊢
          exact numEq_trans na nb nc h₁ h₂
        | null => simp [jsonEquals] at h₂
        | bool _ => simp [jsonEquals] at h₂
        | str _ => simp [jsonEquals] at h₂
        | arr _ => simp [jsonEquals] at h₂
        | obj _ => simp [jsonEquals] at h₂
      | null => simp [jsonEquals] at h₁
      | bool _ => simp [jsonEquals] at h₁
      | str _ => simp [jsonEquals] at h₁
      | arr _ => simp [jsonEquals] at h₁
      | obj _ => simp [jsonEquals] at h₁
    | str sa =>
      cases v with
      | str sb =>
        cases w with
        | str sc =>
          simp only [jsonEquals, decide_eq_true_eq] at h₁ h₂ ⊢
          exact h₁.trans h₂
        | null => simp [jsonEquals] at h₂
        | bool _ => simp [jsonEquals] at h₂
        | num _ => simp [jsonEquals] at h₂
        | arr _ => simp [jsonEquals] at h₂
        | obj _ => simp [jsonEquals] at h₂
      | null => simp [jsonEquals] at h₁
      | bool _ => simp [jsonEquals] at h₁
      | num _ => simp [jsonEquals] at h₁
      | arr _ => simp [jsonEquals] at h₁
      | obj _ => simp [jsonEquals] at h₁
    | arr l₁ =>
      cases v with
      | arr l₂ =>
        cases w with
        | arr l₃ =>
          simp only [jsonEquals] at h₁ h₂ ⊢
          simp only [sizeV] at hs
          refine eqArr_chain l₁ l₂ l₃ (fun a ha b c hab hbc => ?_) h₁ h₂
          have hsa := sizeArr_mem l₁ a ha
          exact ih (n - 1) (by omega) a b c (by omega) hab hbc
        | null => simp [jsonEquals] at h₂
        | bool _ => simp [jsonEquals] at h₂
        | num _ => simp [jsonEquals] at h₂
        | str _ => simp [jsonEquals] at h₂
        | obj _ => simp [jsonEquals] at h₂
      | null => simp [jsonEquals] at h₁
      | bool _ => simp [jsonEquals] at h₁
      | num _ => simp [jsonEquals] at h₁
      | str _ => simp [jsonEquals] at h₁
      | obj _ => simp [jsonEquals] at h₁
    | obj l₁ =>
      cases v with
      | obj l₂ =>
        cases w with
        | obj l₃ =>
          simp only [jsonEquals, Bool.and_eq_true, beq_iff_eq] at h₁ h₂ ⊢
          simp only [sizeV] at hs
          refine ⟨h₁.1.trans h₂.1,
            eqPairs_chain l₁ l₂ l₃ (fun p hp b c hab hbc => ?_) h₁.2 h₂.2⟩
          obtain ⟨pk, pv⟩ := p
          have hsa := sizePairs_mem l₁ pk pv hp
          exact ih (n - 1) (by omega) pv b c (by omega) hab hbc
        | null => simp [jsonEquals] at h₂
        | bool _ => simp [jsonEquals] at h₂
        | num _ => simp [jsonEquals] at h₂
        | str _ => simp [jsonEquals] at h₂
        | arr _ => simp [jsonEquals] at h₂
      | null => simp [jsonEquals] at h₁
      | bool _ => simp [jsonEquals] at h₁
      | num _ => simp [jsonEquals] at h₁
      | str _ => simp [jsonEquals] at h₁
      | arr _ => simp [jsonEquals] at h₁

/-- When the key is absent, `json_object_set` appends the pair. -/
theorem objectSet_of_lookup_none (acc : List (List Nat × JsonValue))
    (k : List Nat) (v : JsonValue) (h : lookupPairs acc k = none) :
    objectSet acc k v = acc ++ [(cstr k, v)] := by
  induction acc with
  | nil => rfl
  | cons p t ih =>
    obtain ⟨k₀, v₀⟩ := p
    simp only [lookupPairs] at h
    by_cases hk : cstr k₀ = cstr k
    · rw [if_pos hk] at h
      cases h
    · rw [if_neg hk] at h
      simp only [objectSet, if_neg hk, ih h, List.cons_append]

/-- A key absent from both halves is absent from their concatenation. -/
theorem lookupPairs_append_none (a b : List (List Nat × JsonValue))
    (k : List Nat) (ha : lookupPairs a k = none)
    (hb : lookupPairs b k = none) : lookupPairs (a ++ b) k = none := by
  induction a with
  | nil => simpa using hb
  | cons p t ih =>
    obtain ⟨k₀, v₀⟩ := p
    simp only [lookupPairs, List.cons_append] at ha ⊢
    by_cases hk : cstr k₀ = cstr k
    · rw [if_pos hk] at ha
      cases ha
    · rw [if_neg hk] at ha ⊢
      exact ih ha

/-- Folding key-distinct pairs into an object they are disjoint from just
appends them, with keys canonicalised by `cstr` (the `strcpy` in
`json_object_set`). -/
theorem objFold_app (m : List (List Nat × JsonValue)) :
    ∀ acc, (∀ p ∈ m, lookupPairs acc p.1 = none) →
    uniqKeys (m.map (fun p => cstr p.1)) = true →
    objFold acc m = acc ++ m.map (fun p => (cstr p.1, p.2)) := by
  induction m with
  | nil =>
    intro acc _ _
    simp [objFold]
  | cons p t ih =>
    intro acc hnone hu
    obtain ⟨k, v⟩ := p
    have hnd := (uniqKeys_nodup _).mp hu
    simp only [List.map_cons, List.nodup_cons] at hnd
    simp only [objFold]
    rw [objectSet_of_lookup_none acc k v (hnone (k, v) (by simp))]
    rw [ih (acc ++ [(cstr k, v)]) ?_ ((uniqKeys_nodup _).mpr hnd.2)]
    · simp
    · intro q hq
      refine lookupPairs_append_none _ _ _ (hnone q (by simp [hq])) ?_
      have hkq : cstr k ≠ cstr q.1 := by
        intro hc
        exact hnd.1 (hc ▸ List.mem_map.mpr ⟨q, hq, rfl⟩)
      simp only [lookupPairs, cstr_idem, if_neg hkq]

/-- `json_deep_copy` preserves the key list up to `cstr`. -/
theorem dcPairs_keys (l : List (List Nat × JsonValue)) :
    (dcPairs l).map (fun p => cstr p.1) = l.map (fun p => cstr p.1) := by
  induction l with
  | nil => rfl
  | cons p t ih =>
    obtain ⟨k, v⟩ := p
    simp only [dcPairs, List.map_cons, ih]

/-- `json_deep_copy` copies each pair in place. -/
theorem mem_dcPairs (l : List (List Nat × JsonValue)) (k : List Nat)
    (v : JsonValue) (h : (k, v) ∈ l) : (k, deepCopy v) ∈ dcPairs l := by
  induction l with
  | nil => simp at h
  | cons p t ih =>
    obtain ⟨k₀, v₀⟩ := p
    rcases List.mem_cons.mp h with he | ht
    · obtain ⟨rfl, rfl⟩ := Prod.mk.injEq .. ▸ he
      simp [dcPairs]
    · simp only [dcPairs, List.mem_cons]
      exact Or.inr (ih ht)

/-- The pair copies keep the count. -/
theorem dcPairs_length (l : List (List Nat × JsonValue)) :
    (dcPairs l).length = l.length := by
  induction l with
  | nil => rfl
  | cons p t ih =>
    obtain ⟨k, v⟩ := p
    simp [dcPairs, ih]

/-- Element-wise copy equality lifts to the array loop. -/
theorem eqArr_dc (l : List JsonValue)
    (h : ∀ v ∈ l, jsonEquals v (deepCopy v) = true) :
    eqArr l (dcArr l) = true := by
  induction l with
  | nil => rfl
  | cons v t ih =>
    simp only [dcArr, eqArr, Bool.and_eq_true]
    exact ⟨h v (by simp), ih (fun x hx => h x (by simp [hx]))⟩

/-- A well-formed value equals its `json_deep_copy` (size-bounded form
for the induction). -/
theorem deepCopy_equals_aux : ∀ (n : Nat) (v : JsonValue), sizeV v ≤ n →
    wfV v = true → jsonEquals v (deepCopy v) = true := by
  intro n
  induction n using Nat.strong_induction_on with
  | _ n ih =>
    intro v hs hv
    cases v with
    | null => rfl
    | bool b => simp [deepCopy, jsonEquals]
    | num nv =>
      cases nv with
      | fin m e => rw [deepCopy, jsonEquals, numEq, decValEq_iff]
      | inf b => simp [wfV] at hv
      | nan => simp [wfV] at hv
    | str s =>
      simp only [deepCopy, jsonEquals, decide_eq_true_eq]
      exact (cstr_idem s).symm
    | arr l =>
      simp only [deepCopy, jsonEquals]
      simp only [wfV] at hv
      simp only [sizeV] at hs
      refine eqArr_dc l (fun x hx => ?_)
      have hsx := sizeArr_mem l x hx
      exact ih (n - 1) (by omega) x (by omega) (wfArr_mem l x hv hx)
    | obj l =>
      simp only [deepCopy, jsonEquals, Bool.and_eq_true, beq_iff_eq]
      simp only [wfV, Bool.and_eq_true] at hv
      simp only [sizeV] at hs
      have hukeys : uniqKeys ((dcPairs l).map (fun p => cstr p.1)) = true := by
        rw [dcPairs_keys]
        exact hv.1
      rw [objFold_app (dcPairs l) [] (fun p _ => rfl) hukeys]
      simp only [List.nil_append]
      have hkeyeq : ((dcPairs l).map (fun p => (cstr p.1, p.2))).map
          (fun p => cstr p.1) = l.map (fun p => cstr p.1) := by
        rw [List.map_map]
        rw [show ((fun p : List Nat × JsonValue => cstr p.1) ∘
            (fun p : List Nat × JsonValue => (cstr p.1, p.2))) =
            (fun p : List Nat × JsonValue => cstr (cstr p.1)) from rfl]
        simp only [cstr_idem]
        exact dcPairs_keys l
      constructor
      · simp [dcPairs_length]
      · rw [eqPairs_iff]
        rintro ⟨k, v⟩ hp
        refine ⟨deepCopy v, ?_, ?_⟩
        · have hmem : (cstr k, deepCopy v) ∈
              (dcPairs l).map (fun p => (cstr p.1, p.2)) :=
            List.mem_map.mpr ⟨(k, deepCopy v), mem_dcPairs l k v hp, rfl⟩
          have hlk := mem_lookupPairs _ (cstr k) (deepCopy v)
            (by rw [hkeyeq]; exact hv.1) hmem
          rw [lookupPairs_congr _ k (cstr k) (cstr_idem k).symm]
          exact hlk
        · have hsx := sizePairs_mem l k v hp
          exact ih (n - 1) (by omega) v (by omega) (wfPairs_mem l k v hv.2 hp)

/-- Permuting the pairs of a well-formed object is invisible to
`json_equals`. -/
theorem eqObj_perm (l₁ l₂ : List (List Nat × JsonValue))
    (hw₁ : wfV (.obj l₁) = true) (hw₂ : wfV (.obj l₂) = true)
    (hperm : l₁.Perm l₂) :
    jsonEquals (.obj l₁) (.obj l₂) = true := by
  simp only [jsonEquals, Bool.and_eq_true, beq_iff_eq]
  simp only [wfV, Bool.and_eq_true] at hw₁ hw₂
  refine ⟨hperm.length_eq, (eqPairs_iff _ _).mpr ?_⟩
  rintro ⟨k, v⟩ hp
  have hp₂ : (k, v) ∈ l₂ := hperm.mem_iff.mp hp
  refine ⟨v, mem_lookupPairs l₂ k v hw₂.1 hp₂, ?_⟩
  exact jsonEquals_refl_aux (sizeV v) v le_rfl (wfPairs_mem l₁ k v hw₁.2 hp)

/-- The object case of `json_equals`, read off the code: count equality
plus a successful equal-valued lookup for every key of the first operand. -/
theorem eqObj_iff (l₁ l₂ : List (List Nat × JsonValue)) :
    jsonEquals (.obj l₁) (.obj l₂) = true ↔
      l₁.length = l₂.length ∧
      ∀ p ∈ l₁, ∃ v', lookupPairs l₂ p.1 = some v' ∧
        jsonEquals p.2 v' = true := by
  simp only [jsonEquals, Bool.and_eq_true, beq_iff_eq, eqPairs_iff]

/-- C8: `json_equals` is reflexive, symmetric and transitive on values
satisfying the data-model invariants (finite numbers, unique object keys;
transitivity in fact holds outright), every value equals its
`json_deep_copy`, object equality ignores key order, and two objects are
equal exactly when their counts match and every key of the first has an
equal-valued `json_object_get` hit in the second. -/
theorem equality_algebra :
    (∀ v, wfV v = true → jsonEquals v v = true) ∧
    (∀ v w, wfV v = true → wfV w = true →
        jsonEquals v w = true → jsonEquals w v = true) ∧
    (∀ u v w, wfV u = true → wfV v = true → wfV w = true →
        jsonEquals u v = true → jsonEquals v w = true →
        jsonEquals u w = true) ∧
    (∀ v, wfV v = true → jsonEquals v (deepCopy v) = true) ∧
    (∀ l₁ l₂, wfV (.obj l₁) = true → wfV (.obj l₂) = true → l₁.Perm l₂ →
        jsonEquals (.obj l₁) (.obj l₂) = true) ∧
    (∀ l₁ l₂, jsonEquals (.obj l₁) (.obj l₂) = true ↔
        l₁.length = l₂.length ∧
        ∀ p ∈ l₁, ∃ v', lookupPairs l₂ p.1 = some v' ∧
          jsonEquals p.2 v' = true) :=
  ⟨fun v hv => jsonEquals_refl_aux (sizeV v) v le_rfl hv,
   fun v w hv hw he => jsonEquals_symm_aux (sizeV v) v w le_rfl hv hw he,
   fun u v w _ _ _ h₁ h₂ =>
     jsonEquals_trans_aux (sizeV u) u v w le_rfl h₁ h₂,
   fun v hv => deepCopy_equals_aux (sizeV v) v le_rfl hv,
   eqObj_perm,
   eqObj_iff⟩

/-- Witness: the equality algebra exercised at concrete values — an
object equals itself and its deep copy, mantissa-shifted numbers chain
symmetrically and transitively, a two-key object equals its swapped
permutation, and the object characterisation instantiates. -/
theorem equality_algebra_witness :
    jsonEquals (.obj [([97], .null)]) (.obj [([97], .null)]) = true ∧
    jsonEquals (.num (.fin 10 (-1))) (.num (.fin 1 0)) = true ∧
    jsonEquals (.num (.fin 1 0)) (.num (.fin 100 (-2))) = true ∧
    jsonEquals (.arr [.str [104]]) (deepCopy (.arr [.str [104]])) = true ∧
    jsonEquals (.obj [([97], .null), ([98], .bool true)])
      (.obj [([98], .bool true), ([97], .null)]) = true ∧
    (jsonEquals (.obj [([97], .null)]) (.obj []) = true ↔
      ([([97], JsonValue.null)].length = ([] : List (List Nat × JsonValue)).length ∧
        ∀ p ∈ [([97], JsonValue.null)], ∃ v',
          lookupPairs [] p.1 = some v' ∧ jsonEquals p.2 v' = true)) :=
  ⟨equality_algebra.1 (.obj [([97], .null)]) (by rfl),
   equality_algebra.2.1 (.num (.fin 1 0)) (.num (.fin 10 (-1)))
     (by rfl) (by rfl) (by decide),
   equality_algebra.2.2.1 (.num (.fin 1 0)) (.num (.fin 10 (-1)))
     (.num (.fin 100 (-2))) (by rfl) (by rfl) (by rfl)
     (by decide) (by decide),
   equality_algebra.2.2.2.1 (.arr [.str [104]]) (by rfl),
   equality_algebra.2.2.2.2.1 [([97], .null), ([98], .bool true)]
     [([98], .bool true), ([97], .null)] (by rfl) (by rfl)
     (List.Perm.swap _ _ _),
   equality_algebra.2.2.2.2.2 [([97], .null)] []⟩
